import Mathlib

/-!
# huh-sitemaps: crawler, aggregator and robots.txt scan

A shallow embedding of `main.go`.

* Go strings are modelled as Lean `String`s, sequences of Unicode code points, that is as
  valid UTF-8; the URLs and locations have passed the XML decoder, which rejects invalid
  UTF-8.  The rune tables `unicode.ToLower` and `unicode.ToUpper` are parameters.
* Go's `int` counters and the `sync.WaitGroup` counter are modelled as unbounded `Int`s:
  streams of `2^63` items and `2^31` simultaneously pending goroutines are outside the
  model.
* Goroutines are modelled by an interleaving small-step semantics: a scheduler picks, at
  each step, one goroutine that performs its next visible operation.
-/

namespace Sitemaps

/-! ## Library models: `encoding/xml`, `strings`, `bufio` -/

/-- An XML node as produced by the tokenizer of `encoding/xml`: an element with its local
name and child nodes, or a run of character data.  Comments, directives and processing
instructions are ignored by `xml.Unmarshal` for the two target types and are left out. -/
inductive XmlNode where
  | element (name : String) (children : List XmlNode)
  | chardata (text : String)

/-- A response body as `xml.Unmarshal` sees it: `malformed` when the tokenizer fails before
the first element is closed (syntax error, invalid UTF-8, no element at all), otherwise the
first element with its local name and children; whatever follows it is never read. -/
inductive Body where
  | malformed
  | document (root : String) (children : List XmlNode)

/-- The anonymous Go struct with the single field `Loc` (tag `loc`) used by both schemas. -/
structure LocEntry where
  Loc : String
deriving DecidableEq

/-- Go struct `SitemapIndex`: `XMLName` is `sitemapindex`, `Sitemaps` collects the
`sitemap` children. -/
structure SitemapIndex where
  Sitemaps : List LocEntry
deriving DecidableEq

/-- Go struct `URLSet`: `XMLName` is `urlset`, `URLs` collects the `url` children. -/
structure URLSet where
  URLs : List LocEntry
deriving DecidableEq

/-- Decoding into a Go `string` field: the character data directly inside the element,
concatenated; nested elements are skipped. -/
def charData (children : List XmlNode) : String :=
  children.foldl
    (fun data k =>
      match k with
      | .chardata t => data ++ t
      | .element _ _ => data)
    ""

/-- Decoding an element into the struct with the `loc` field: every child element named
`loc` is decoded into `Loc` (a later one overwrites an earlier one); other children are
skipped; without a `loc` child the field keeps its zero value. -/
def unmarshalLoc (children : List XmlNode) : LocEntry :=
  children.foldl
    (fun e k =>
      match k with
      | .element name cs => if name = "loc" then ⟨charData cs⟩ else e
      | .chardata _ => e)
    ⟨""⟩

/-- Decoding the children of the root into a slice field with the given element tag: one
slice entry per child element of that name, in document order. -/
def unmarshalEntries (tag : String) (children : List XmlNode) : List LocEntry :=
  children.filterMap fun k =>
    match k with
    | .element name cs => if name = tag then some (unmarshalLoc cs) else none
    | .chardata _ => none

/-- The call `xml.Unmarshal(body, &sitemapIndex)`; `none` stands for a non-nil error. -/
def unmarshalSitemapIndex : Body → Option SitemapIndex
  | .malformed => none
  | .document root children =>
    if root = "sitemapindex" then some ⟨unmarshalEntries "sitemap" children⟩ else none

/-- The call `xml.Unmarshal(body, &urlSet)`; `none` stands for a non-nil error. -/
def unmarshalURLSet : Body → Option URLSet
  | .malformed => none
  | .document root children =>
    if root = "urlset" then some ⟨unmarshalEntries "url" children⟩ else none

/-- Go `strings.ToLower`, with the rune mapping `unicode.ToLower` taken as the parameter
`lower`: the string with every code point mapped. -/
def ToLower (lower : Char → Char) (s : String) : String :=
  ⟨s.data.map lower⟩

/-- Go `strings.ToUpper`, with the rune mapping `unicode.ToUpper` taken as the parameter
`upper`. -/
def ToUpper (upper : Char → Char) (s : String) : String :=
  ⟨s.data.map upper⟩

/-- Excerpt of Go `unicode.ToLower` (simple case mapping): exact on the ASCII range and on
U+0131, the dotless i, which is its own lower case.  On the other code points it is the
identity, which `unicode.ToLower` is not; it is used for concrete evaluations on strings of
these code points only. -/
def toLowerExcerpt (c : Char) : Char :=
  if 'A' ≤ c ∧ c ≤ 'Z' then Char.ofNat (c.toNat + 32) else c

/-- Excerpt of Go `unicode.ToUpper`: exact on the ASCII range and on U+0131, whose upper
case is the ASCII letter `I` (table entry `0x0131` with upper delta `-232`). -/
def toUpperExcerpt (c : Char) : Char :=
  if 'a' ≤ c ∧ c ≤ 'z' then Char.ofNat (c.toNat - 32)
  else if c = Char.ofNat 0x131 then 'I' else c

/-- Go `strings.HasPrefix` on code-point sequences. -/
def hasPrefix : List Char → List Char → Bool
  | _, [] => true
  | [], _ :: _ => false
  | c :: s, p :: ps => c == p && hasPrefix s ps

/-- Go `strings.Contains(s, substr)`: some position of `s` starts a copy of `substr`. -/
def containsAt : List Char → List Char → Bool
  | [], substr => hasPrefix [] substr
  | c :: s, substr => hasPrefix (c :: s) substr || containsAt s substr

/-- Go `strings.Contains`. -/
def Contains (s substr : String) : Bool :=
  containsAt s.data substr.data

/-- Go `strings.HasPrefix`. -/
def HasPrefix (s pre : String) : Bool :=
  hasPrefix s.data pre.data

/-- Go `strings.TrimPrefix`: `s` without the leading `pre` when it has it, else `s`. -/
def TrimPrefix (s pre : String) : String :=
  if HasPrefix s pre then ⟨s.data.drop pre.data.length⟩ else s

/-- Helper `dropCR` of `bufio.ScanLines`: drops one trailing carriage return. -/
def dropCR (data : List Char) : List Char :=
  if data.getLast? = some '\r' then data.dropLast else data

/-- The tokens `bufio.Scanner` delivers with the default split function `ScanLines`:
`cur` is the unterminated line read so far.  Each newline ends a token; at the end of
input the remaining data is a final token when it is non-empty. -/
def scanLinesFrom (cur : List Char) : List Char → List String
  | [] => if cur = [] then [] else [⟨dropCR cur⟩]
  | c :: cs =>
    if c = '\n' then ⟨dropCR cur⟩ :: scanLinesFrom [] cs
    else scanLinesFrom (cur ++ [c]) cs

/-- All tokens of a body under `bufio.ScanLines`. -/
def scanLines (body : String) : List String :=
  scanLinesFrom [] body.data

/-! ## `getSitemapsFromRobots` -/

/-- What the network gives `getSitemapsFromRobots`: `http.Get` fails, or the body is
scanned; `scanErr` says whether `scanner.Err()` is non-nil after the loop (a read error or
a line beyond the scanner's buffer limit). -/
inductive RobotsFetch where
  | getError
  | body (data : String) (scanErr : Bool)

/-- The loop of `getSitemapsFromRobots` over the scanned lines. -/
def robotsLoop : List String → List String → List String
  | sitemapURLs, [] => sitemapURLs
  | sitemapURLs, line :: rest =>
    if HasPrefix line "Sitemap: " then
      robotsLoop (sitemapURLs ++ [TrimPrefix line "Sitemap: "]) rest
    else robotsLoop sitemapURLs rest

/-- Go `getSitemapsFromRobots`; `none` stands for a panic. -/
def getSitemapsFromRobots : RobotsFetch → Option (List String)
  | .getError => none
  | .body data scanErr =>
    let sitemapURLs := robotsLoop [] (scanLines data)
    if scanErr then none else some sitemapURLs

/-! ## Aggregator: `countURLs` and `patternMatch` -/

/-- Loop body of the goroutine of `countURLs`. -/
def countBody (count : Int) (_url : String) : Int :=
  count + 1

/-- Loop body of the goroutine of `patternMatch`, `lowerPattern` already computed. -/
def matchBody (lower : Char → Char) (lowerPattern : String) (count : Int) (url : String) :
    Int :=
  if Contains (ToLower lower url) lowerPattern then count + 1 else count

/-- Go `countURLs`: the value sent on `countChan` once `urlsChan`, which delivers the
given items, is closed. -/
def countURLs (urlsChan : List String) : Int :=
  urlsChan.foldl countBody 0

/-- Go `patternMatch`: the value sent on `matchesChan` once `urlsChan`, which delivers the
given items, is closed. -/
def patternMatch (lower : Char → Char) (urlsChan : List String) (pattern : String) : Int :=
  let lowerPattern := ToLower lower pattern
  urlsChan.foldl (matchBody lower lowerPattern) 0

/-! ## Crawler: `getUrlsFromSitemap` and the goroutines of `main` -/

/-- Outcome of `http.Get(url)` followed by `io.ReadAll(resp.Body)`.  `http.Get` reports an
error only when no response was obtained; a response of any status code is returned
without error. -/
inductive FetchResult where
  | getError
  | readError (status : Nat)
  | response (status : Nat) (body : Body)

/-- Control state of one goroutine running `getUrlsFromSitemap`:
`fetching url` at entry; `spawning rest` at the head of the loop over
`sitemapIndex.Sitemaps`; `launching loc rest` between `wg.Add(1)` and the `go`
statement; `sending rest` at the head of the loop over `urlSet.URLs`; `returning` on a
path with nothing left but the deferred `wg.Done()`. -/
inductive Task where
  | fetching (url : String)
  | spawning (rest : List LocEntry)
  | launching (loc : String) (rest : List LocEntry)
  | sending (rest : List LocEntry)
  | returning
deriving DecidableEq

/-- The part of `getUrlsFromSitemap` from `http.Get` to the choice of the branch. -/
def getUrlsFromSitemap (r : FetchResult) : Task :=
  match r with
  | .getError => .returning
  | .readError _ => .returning
  | .response _ body =>
    match unmarshalSitemapIndex body with
    | some sitemapIndex => .spawning sitemapIndex.Sitemaps
    | none =>
      match unmarshalURLSet body with
      | some urlSet => .sending urlSet.URLs
      | none => .returning

/-- Control state of the goroutine `wg.Wait(); close(urlsChan)` of `main`. -/
inductive Supervisor where
  | waiting
  | woken
  | exited
deriving DecidableEq

/-- Shared state of the program after `main` has started its goroutines: the running
crawler goroutines, the `WaitGroup` counter, the buffer of `urlsChan` and whether it is
closed, the supervising goroutine, the local `count` of the aggregating goroutine and the
value it has sent on its result channel.
`panicked` records a runtime panic (send on a closed channel, close of a closed channel,
negative `WaitGroup` counter).  Two history variables: `closes` counts the executions of
`close(urlsChan)`, `received` lists the items the aggregator has taken from `urlsChan`,
in order. -/
structure State where
  tasks : List Task
  wg : Int
  urlsChan : List String
  closed : Bool
  supervisor : Supervisor
  count : Int
  result : Option Int
  panicked : Bool
  closes : Nat
  received : List String
deriving DecidableEq

/-- What the scheduler may run next: the goroutine at an index of `tasks`, the supervising
goroutine, or the aggregating goroutine. -/
inductive Action where
  | task (i : Nat)
  | supervisor
  | aggregator
deriving DecidableEq

/-- Capacity of `urlsChan` (`make(chan string, 100)`). -/
def chanCap : Nat := 100

/-- The task list with the task at index `i` replaced by the tasks `new`: by its next
control state, or by nothing when it returns. -/
def replaceAt (tasks : List Task) (i : Nat) (new : List Task) : List Task :=
  tasks.take i ++ new ++ tasks.drop (i + 1)

/-- State in which `main` leaves the program: `wg.Add(1)`, the first crawler goroutine and
the supervising goroutine started, the aggregator about to drain `urlsChan`. -/
def init (start : String) : State :=
  { tasks := [.fetching start], wg := 1, urlsChan := [], closed := false,
    supervisor := .waiting, count := 0, result := none, panicked := false, closes := 0,
    received := [] }

/-- One scheduling step; `none` when the chosen goroutine does not exist, is blocked or has
finished, or the program has panicked.  `reduce` is the loop body of the aggregator. -/
def step (fetch : String → FetchResult) (reduce : Int → String → Int) (s : State) :
    Action → Option State
  | .task i =>
    if s.panicked then none
    else
      match s.tasks[i]? with
      | none => none
      | some (.fetching url) => -- http.Get, io.ReadAll, xml.Unmarshal
        some { s with tasks := replaceAt s.tasks i [getUrlsFromSitemap (fetch url)] }
      | some (.spawning (e :: rest)) => -- wg.Add(1)
        some { s with wg := s.wg + 1, tasks := replaceAt s.tasks i [.launching e.Loc rest] }
      | some (.launching loc rest) => -- go getUrlsFromSitemap(sitemap.Loc, wg, urlsChan)
        some { s with tasks := replaceAt s.tasks i [.spawning rest] ++ [.fetching loc] }
      | some (.sending (e :: rest)) => -- urlsChan <- url.Loc
        if s.closed then some { s with panicked := true }
        else if s.urlsChan.length < chanCap then
          some { s with urlsChan := s.urlsChan ++ [e.Loc],
                        tasks := replaceAt s.tasks i [.sending rest] }
        else none
      | some _ => -- end of either loop or a failure path: the deferred wg.Done()
        if s.wg ≤ 0 then some { s with panicked := true }
        else some { s with wg := s.wg - 1, tasks := replaceAt s.tasks i [] }
  | .supervisor =>
    if s.panicked then none
    else
      match s.supervisor with
      | .waiting => -- wg.Wait()
        if s.wg = 0 then some { s with supervisor := .woken } else none
      | .woken => -- close(urlsChan)
        if s.closed then some { s with panicked := true }
        else some { s with closed := true, closes := s.closes + 1, supervisor := .exited }
      | .exited => none
  | .aggregator =>
    if s.panicked then none
    else
      match s.result with
      | some _ => none
      | none =>
        match s.urlsChan with
        | url :: rest =>
          some { s with urlsChan := rest, count := reduce s.count url,
                        received := s.received ++ [url] }
        | [] => -- the range loop ends on a closed, drained channel: the count is sent
          if s.closed then some { s with result := some s.count } else none

/-- Running a schedule: the actions are taken in order; `none` when one is not enabled. -/
def run (fetch : String → FetchResult) (reduce : Int → String → Int) :
    State → List Action → Option State
  | s, [] => some s
  | s, a :: as =>
    match step fetch reduce s a with
    | none => none
    | some s' => run fetch reduce s' as

/-! ## The reference tree behind a fetch function -/

/-- Locations a task will still hand to `go getUrlsFromSitemap` before it returns. -/
def Task.spawns : Task → List String
  | .spawning rest => rest.map (·.Loc)
  | .launching loc rest => loc :: rest.map (·.Loc)
  | _ => []

/-- Strings a task will still send on `urlsChan` before it returns. -/
def Task.emits : Task → List String
  | .sending rest => rest.map (·.Loc)
  | _ => []

/-- Child references of the document at a location. -/
def children (fetch : String → FetchResult) (url : String) : List String :=
  (getUrlsFromSitemap (fetch url)).spawns

/-- Leaf URLs held by the document at a location. -/
def leaves (fetch : String → FetchResult) (url : String) : List String :=
  (getUrlsFromSitemap (fetch url)).emits

/-- The reference graph unfolded from `url` is a tree of depth below `d`: finite and
free of cycles. -/
def finiteDepth (fetch : String → FetchResult) : Nat → String → Bool
  | 0, _ => false
  | d + 1, url => (children fetch url).all (finiteDepth fetch d)

/-- Sum of `base` over the documents of the tree unfolded from `url` to depth `d`, each
document counted once for every path that reaches it. -/
def foldTree (fetch : String → FetchResult) (base : String → Nat) : Nat → String → Nat
  | 0, _ => 0
  | d + 1, url => base url + ((children fetch url).map (foldTree fetch base d)).sum

/-- Number of leaf URLs in the documents of the tree, with multiplicity. -/
def totalLeaves (fetch : String → FetchResult) (d : Nat) (url : String) : Nat :=
  foldTree fetch (fun u => (leaves fetch u).length) d url

/-- All locations a task still refers to: the one it is about to fetch or the ones it is
about to spawn. -/
def Task.refs : Task → List String
  | .fetching url => [url]
  | t => t.spawns

/-- Units of pending work a task stands for in the `WaitGroup` counter: itself, and the
child it has announced with `wg.Add(1)` but not yet started. -/
def Task.pending : Task → Nat
  | .launching _ _ => 2
  | _ => 1

/-- Leaf URLs still to come from a task and the subtrees below it, `val` giving the
number for a location. -/
def Task.total (val : String → Nat) : Task → Nat
  | .fetching url => val url
  | .spawning rest => (rest.map fun e => val e.Loc).sum
  | .launching loc rest => val loc + (rest.map fun e => val e.Loc).sum
  | .sending rest => rest.length
  | .returning => 0

/-- Scheduling steps still to come from a task, its descendants and the receipt of the
items they send, `val` giving the number for a location. -/
def Task.cost (val : String → Nat) : Task → Nat
  | .fetching url => val url
  | .spawning rest => (rest.map fun e => 2 + val e.Loc).sum + 1
  | .launching loc rest => 1 + val loc + ((rest.map fun e => 2 + val e.Loc).sum + 1)
  | .sending rest => 2 * rest.length + 1
  | .returning => 1

/-- Steps caused by the document at a location itself: the fetch, two per child or per
leaf URL, the return. -/
def costBase (fetch : String → FetchResult) (url : String) : Nat :=
  2 + 2 * (children fetch url).length + 2 * (leaves fetch url).length

/-- Steps the supervising goroutine still has to take. -/
def Supervisor.cost : Supervisor → Nat
  | .waiting => 2
  | .woken => 1
  | .exited => 0

/-- Number of scheduling steps left in a state: a variant that every step decreases. -/
def stepsLeft (fetch : String → FetchResult) (D : Nat) (s : State) : Nat :=
  (s.tasks.map (Task.cost (foldTree fetch (costBase fetch) D))).sum + s.urlsChan.length
    + s.supervisor.cost + (if s.result = none then 1 else 0)

/-- Invariant of the crawl; `P` is a property of every location that a task still refers
to. -/
structure Invariant (P : String → Prop) (s : State) : Prop where
  noPanic : s.panicked = false
  wgEq : s.wg = ((s.tasks.map Task.pending).sum : Nat)
  closedTasks : s.closed = true → s.tasks = []
  wokenTasks : s.supervisor = .woken → s.tasks = []
  supClosed : s.closed = true ↔ s.supervisor = .exited
  closesEq : s.closes = if s.closed then 1 else 0
  resultDone : ∀ n, s.result = some n → s.closed = true ∧ s.urlsChan = [] ∧ n = s.count
  chanBound : s.urlsChan.length ≤ chanCap
  refsOk : ∀ t ∈ s.tasks, ∀ l ∈ t.refs, P l

/-- Invariant of the crawl over a reference tree of depth below `D`. -/
abbrev Inv (fetch : String → FetchResult) (D : Nat) (s : State) : Prop :=
  Invariant (fun l => finiteDepth fetch D l = true) s

/-- Leaf URLs accounted for in a state: counted by the aggregator, waiting in the channel,
or still to come from the tasks and the subtrees below them. -/
def leafCount (fetch : String → FetchResult) (D : Nat) (s : State) : Int :=
  s.count + (s.urlsChan.length : Nat)
    + (((s.tasks.map (Task.total (totalLeaves fetch D))).sum : Nat) : Int)

/-! ## Example documents and networks -/

/-- A leaf document: root `urlset` with one `url` element holding a `loc` per URL. -/
def urlsetDoc (urls : List String) : Body :=
  .document "urlset" (urls.map fun u => .element "url" [.element "loc" [.chardata u]])

/-- An index document: root `sitemapindex` with one `sitemap` element holding a `loc` per
child location. -/
def sitemapindexDoc (locs : List String) : Body :=
  .document "sitemapindex"
    (locs.map fun l => .element "sitemap" [.element "loc" [.chardata l]])

/-- An example network: `index` lists the leaf documents `a` (3 URLs) and `b` (5 URLs);
`mixed` lists `down`, which cannot be fetched, and the leaf document `c` (4 URLs);
`missing` answers with status 404 and a body that is a leaf document with one URL; every
other location cannot be fetched. -/
def exampleFetch : String → FetchResult
  | "index" => .response 200 (sitemapindexDoc ["a", "b"])
  | "a" => .response 200 (urlsetDoc ["a/1", "a/2", "a/3"])
  | "b" => .response 200 (urlsetDoc ["b/1", "b/2", "b/3", "b/4", "b/5"])
  | "mixed" => .response 200 (sitemapindexDoc ["down", "c"])
  | "c" => .response 200 (urlsetDoc ["c/1", "c/2", "c/3", "c/4"])
  | "missing" => .response 404 (urlsetDoc ["https://a.com/not-found"])
  | _ => .getError

/-- The example network after the first task has fetched and decoded `index`. -/
def exampleState : State :=
  { tasks := [.spawning [⟨"a"⟩, ⟨"b"⟩]], wg := 1, urlsChan := [], closed := false,
    supervisor := .waiting, count := 0, result := none, panicked := false, closes := 0,
    received := [] }

/-- The one-letter string U+0131, the dotless i. -/
def dotlessI : String := ⟨[Char.ofNat 0x131]⟩

/-- Invariant of the crawl of a start reference that is a leaf document with the entries
`es`: the items written so far, received ones first, then the buffered ones, followed by
the entries the one task has still to send, are the `Loc` fields of `es` in order. -/
def leafInv (start : String) (es : List LocEntry) (s : State) : Prop :=
  (s.tasks = [.fetching start] ∧ s.received ++ s.urlsChan = [])
    ∨ (∃ rest, s.tasks = [.sending rest]
        ∧ s.received ++ s.urlsChan ++ rest.map (·.Loc) = es.map (·.Loc))
    ∨ (s.tasks = [] ∧ s.received ++ s.urlsChan = es.map (·.Loc))

/-! ## Facts about the string helpers -/

theorem hasPrefix_iff (s p : List Char) : hasPrefix s p = true ↔ p <+: s := by
  induction p generalizing s with
  | nil => cases s <;> simp [hasPrefix]
  | cons a p ih =>
    cases s with
    | nil => simp [hasPrefix]
    | cons c s =>
      simp only [hasPrefix, Bool.and_eq_true, beq_iff_eq, ih, List.cons_prefix_cons]
      constructor
      · rintro ⟨h, h'⟩; exact ⟨h.symm, h'⟩
      · rintro ⟨h, h'⟩; exact ⟨h.symm, h'⟩

theorem containsAt_iff (s sub : List Char) : containsAt s sub = true ↔ sub <:+: s := by
  induction s with
  | nil =>
    simp only [containsAt, hasPrefix_iff]
    constructor
    · intro h; exact h.isInfix
    · intro h
      have := List.eq_nil_of_infix_nil h
      subst this; exact List.prefix_refl _
  | cons c s ih =>
    simp only [containsAt, Bool.or_eq_true, hasPrefix_iff, ih, List.infix_cons_iff]

theorem foldl_countBody (l : List String) (c : Int) :
    l.foldl countBody c = c + l.length := by
  induction l generalizing c with
  | nil => simp
  | cons a l ih => simp only [List.foldl_cons, ih, countBody, List.length_cons]; push_cast; ring

theorem foldl_matchBody (lower : Char → Char) (lp : String) (l : List String) (c : Int) :
    l.foldl (matchBody lower lp) c
      = c + (l.countP fun u => Contains (ToLower lower u) lp) := by
  induction l generalizing c with
  | nil => simp
  | cons a l ih =>
    by_cases h : Contains (ToLower lower a) lp = true
    · simp only [List.foldl_cons, ih, matchBody, List.countP_cons, h, if_true]
      push_cast; ring
    · simp only [List.foldl_cons, ih, matchBody, List.countP_cons, h]
      simp

/-! ## Facts about the reference tree -/

theorem finiteDepth_succ (fetch : String → FetchResult) (d : Nat) (url : String)
    (h : finiteDepth fetch d url = true) : finiteDepth fetch (d + 1) url = true := by
  induction d generalizing url with
  | zero => simp [finiteDepth] at h
  | succ d ih =>
    rw [finiteDepth, List.all_eq_true] at h ⊢
    intro l hl
    exact ih l (h l hl)

theorem foldTree_succ (fetch : String → FetchResult) (base : String → Nat) (d : Nat)
    (url : String) (h : finiteDepth fetch d url = true) :
    foldTree fetch base (d + 1) url = foldTree fetch base d url := by
  induction d generalizing url with
  | zero => simp [finiteDepth] at h
  | succ d ih =>
    rw [finiteDepth, List.all_eq_true] at h
    rw [foldTree, foldTree.eq_def fetch base (d + 1)]
    simp only
    congr 2
    apply List.map_congr_left
    intro l hl
    exact ih l (h l hl)

theorem finiteDepth_mono (fetch : String → FetchResult) {d d' : Nat} (hd : d ≤ d')
    (url : String) (h : finiteDepth fetch d url = true) : finiteDepth fetch d' url = true := by
  induction hd with
  | refl => exact h
  | step _ ih => exact finiteDepth_succ fetch _ url ih

theorem foldTree_mono (fetch : String → FetchResult) (base : String → Nat) {d d' : Nat}
    (hd : d ≤ d') (url : String) (h : finiteDepth fetch d url = true) :
    foldTree fetch base d' url = foldTree fetch base d url := by
  induction hd with
  | refl => rfl
  | step hle ih =>
    rw [foldTree_succ fetch base _ url (finiteDepth_mono fetch hle url h), ih]

theorem finiteDepth_children (fetch : String → FetchResult) (D : Nat) (url : String)
    (h : finiteDepth fetch D url = true) :
    ∀ l ∈ children fetch url, finiteDepth fetch D l = true := by
  cases D with
  | zero => simp [finiteDepth] at h
  | succ d =>
    rw [finiteDepth, List.all_eq_true] at h
    intro l hl
    exact finiteDepth_succ fetch d l (h l hl)

theorem foldTree_unfold (fetch : String → FetchResult) (base : String → Nat) (D : Nat)
    (url : String) (h : finiteDepth fetch D url = true) :
    foldTree fetch base D url
      = base url + ((children fetch url).map (foldTree fetch base D)).sum := by
  cases D with
  | zero => simp [finiteDepth] at h
  | succ d =>
    rw [finiteDepth, List.all_eq_true] at h
    rw [foldTree]
    congr 2
    apply List.map_congr_left
    intro l hl
    exact (foldTree_succ fetch base d l (h l hl)).symm

/-! ## Facts about the task list -/

theorem tasks_split {tasks : List Task} {i : Nat} {t : Task} (ht : tasks[i]? = some t) :
    tasks = tasks.take i ++ t :: tasks.drop (i + 1) := by
  induction tasks generalizing i with
  | nil => simp at ht
  | cons a tasks ih =>
    cases i with
    | zero => simp at ht; simp [ht]
    | succ i =>
      simp only [List.getElem?_cons_succ] at ht
      simp only [List.take_succ_cons, List.drop_succ_cons, List.cons_append]
      exact congrArg _ (ih ht)

theorem sum_replaceAt (f : Task → Nat) {tasks : List Task} {i : Nat} {t : Task}
    (ht : tasks[i]? = some t) (new extra : List Task) :
    ((replaceAt tasks i new ++ extra).map f).sum + f t
      = (tasks.map f).sum + (new.map f).sum + (extra.map f).sum := by
  have h := congrArg (fun l => (l.map f).sum) (tasks_split ht)
  simp only [List.map_append, List.sum_append, List.map_cons, List.sum_cons] at h
  simp only [replaceAt, List.map_append, List.sum_append]
  omega

theorem mem_replaceAt {tasks : List Task} {i : Nat} {new extra : List Task} {x : Task}
    (hx : x ∈ replaceAt tasks i new ++ extra) : x ∈ tasks ∨ x ∈ new ∨ x ∈ extra := by
  simp only [replaceAt, List.mem_append] at hx
  rcases hx with ((hx | hx) | hx) | hx
  · exact Or.inl (List.mem_of_mem_take hx)
  · exact Or.inr (Or.inl hx)
  · exact Or.inl (List.mem_of_mem_drop hx)
  · exact Or.inr (Or.inr hx)

theorem length_take_of_getElem? {tasks : List Task} {i : Nat} {t : Task}
    (ht : tasks[i]? = some t) : (tasks.take i).length = i := by
  have hlt : i < tasks.length := by
    rcases Nat.lt_or_ge i tasks.length with h | h
    · exact h
    · rw [List.getElem?_eq_none h] at ht; cases ht
  simp only [List.length_take]
  omega

theorem replaceAt_append_cons (pre post : List Task) (x : Task) (new : List Task) :
    replaceAt (pre ++ x :: post) pre.length new = pre ++ new ++ post := by
  simp [replaceAt]

theorem getElem?_append_cons (pre post : List Task) (x : Task) :
    (pre ++ x :: post)[pre.length]? = some x := by
  rw [List.getElem?_append_right (Nat.le_refl _)]
  simp

theorem getElem?_replaceAt {tasks : List Task} {i : Nat} {t : Task}
    (ht : tasks[i]? = some t) (x : Task) (extra : List Task) :
    (replaceAt tasks i [x] ++ extra)[i]? = some x := by
  have hl := length_take_of_getElem? ht
  have := getElem?_append_cons (tasks.take i) (tasks.drop (i + 1) ++ extra) x
  rw [hl] at this
  simpa [replaceAt] using this

theorem replaceAt_replaceAt {tasks : List Task} {i : Nat} {t : Task}
    (ht : tasks[i]? = some t) (x : Task) (extra new : List Task) :
    replaceAt (replaceAt tasks i [x] ++ extra) i new = replaceAt tasks i new ++ extra := by
  have hl := length_take_of_getElem? ht
  have := replaceAt_append_cons (tasks.take i) (tasks.drop (i + 1) ++ extra) x new
  rw [hl] at this
  simpa [replaceAt] using this

theorem mem_tasks {tasks : List Task} {i : Nat} {t : Task} (ht : tasks[i]? = some t) :
    t ∈ tasks := by
  rw [tasks_split ht]; simp

theorem getUrlsFromSitemap_cases (r : FetchResult) :
    (∃ es, getUrlsFromSitemap r = .spawning es) ∨ (∃ es, getUrlsFromSitemap r = .sending es)
      ∨ getUrlsFromSitemap r = .returning := by
  unfold getUrlsFromSitemap
  split
  · simp
  · simp
  · split
    · simp
    · split <;> simp

theorem refs_decode (fetch : String → FetchResult) (url : String) :
    (getUrlsFromSitemap (fetch url)).refs = children fetch url := by
  unfold children
  rcases getUrlsFromSitemap_cases (fetch url) with ⟨es, h⟩ | ⟨es, h⟩ | h <;>
    simp [h, Task.refs]

theorem sum_map_add_const (f : LocEntry → Nat) (es : List LocEntry) :
    (es.map fun e => 2 + f e).sum = 2 * es.length + (es.map f).sum := by
  induction es with
  | nil => simp
  | cons e es ih => simp only [List.map_cons, List.sum_cons, ih, List.length_cons]; omega

theorem total_decode (fetch : String → FetchResult) (D : Nat) (url : String)
    (h : finiteDepth fetch D url = true) :
    Task.total (totalLeaves fetch D) (getUrlsFromSitemap (fetch url))
      = totalLeaves fetch D url := by
  have hu := foldTree_unfold fetch (fun u => (leaves fetch u).length) D url h
  unfold totalLeaves
  rw [hu]
  unfold children leaves
  rcases getUrlsFromSitemap_cases (fetch url) with ⟨es, h⟩ | ⟨es, h⟩ | h <;>
    simp [h, Task.total, Task.spawns, Task.emits, totalLeaves, Function.comp_def]

theorem cost_decode (fetch : String → FetchResult) (D : Nat) (url : String)
    (h : finiteDepth fetch D url = true) :
    Task.cost (foldTree fetch (costBase fetch) D) (getUrlsFromSitemap (fetch url)) + 1
      = foldTree fetch (costBase fetch) D url := by
  have hu := foldTree_unfold fetch (costBase fetch) D url h
  rw [hu]
  unfold costBase children leaves
  rcases getUrlsFromSitemap_cases (fetch url) with ⟨es, h⟩ | ⟨es, h⟩ | h
  · simp only [h, Task.cost, Task.spawns, Task.emits, List.length_map, List.map_map,
      List.length_nil, sum_map_add_const, Function.comp_def]
    omega
  · simp only [h, Task.cost, Task.spawns, Task.emits, List.length_map, List.map_nil,
      List.length_nil, List.sum_nil]
    omega
  · simp only [h, Task.cost, Task.spawns, Task.emits, List.map_nil,
      List.length_nil, List.sum_nil]
    omega

/-! ## The invariant is preserved by every step -/

theorem inv_init (P : String → Prop) (start : String) (h : P start) :
    Invariant P (init start) := by
  constructor <;> simp [init, Task.pending, Task.refs, h, chanCap]

theorem pending_pos (t : Task) : 1 ≤ t.pending := by
  cases t <;> simp [Task.pending]

theorem pending_eq_length (tasks : List Task)
    (h : ∀ t ∈ tasks, ∀ loc rest, t ≠ .launching loc rest) :
    (tasks.map Task.pending).sum = tasks.length := by
  induction tasks with
  | nil => simp
  | cons t ts ih =>
    have ht : t.pending = 1 := by
      cases t with
      | launching loc rest => exact absurd rfl (h _ (List.mem_cons_self _ _) loc rest)
      | _ => rfl
    have := ih fun x hx => h x (List.mem_cons_of_mem _ hx)
    simp only [List.length_cons, List.map_cons, List.sum_cons]
    omega

theorem inv_task_facts {P : String → Prop} {s : State}
    (hI : Invariant P s) {i : Nat} {t : Task} (ht : s.tasks[i]? = some t) :
    s.closed = false ∧ s.supervisor ≠ .woken ∧ s.result = none ∧ 0 < s.wg := by
  have hne : s.tasks ≠ [] := by
    intro h; rw [h] at ht; simp at ht
  have hc : s.closed = false := by
    cases hcl : s.closed with
    | false => rfl
    | true => exact absurd (hI.closedTasks hcl) hne
  refine ⟨hc, fun hw => hne (hI.wokenTasks hw), ?_, ?_⟩
  · cases hr : s.result with
    | none => rfl
    | some n =>
      have := (hI.resultDone n hr).1
      rw [hc] at this; cases this
  · have h1 := sum_replaceAt Task.pending ht [] []
    have h2 := pending_pos t
    have h3 := hI.wgEq
    simp only [List.map_nil, List.sum_nil] at h1
    omega

theorem inv_task_update {P : String → Prop} {s : State}
    (hI : Invariant P s) {i : Nat} {t : Task} (ht : s.tasks[i]? = some t)
    (new extra : List Task) (s' : State)
    (htasks : s'.tasks = replaceAt s.tasks i new ++ extra)
    (hwg : s'.wg + t.pending = s.wg + ((new.map Task.pending).sum : Nat)
      + ((extra.map Task.pending).sum : Nat))
    (hchan : s'.urlsChan.length ≤ chanCap)
    (hfin : ∀ x, x ∈ new ∨ x ∈ extra → ∀ l ∈ x.refs, P l)
    (hrest : s'.closed = s.closed ∧ s'.supervisor = s.supervisor ∧ s'.result = s.result
      ∧ s'.panicked = s.panicked ∧ s'.closes = s.closes) :
    Invariant P s' := by
  obtain ⟨hc, hw, hr, _⟩ := inv_task_facts hI ht
  obtain ⟨e1, e2, e3, e4, e5⟩ := hrest
  constructor
  · rw [e4]; exact hI.noPanic
  · have h1 := sum_replaceAt Task.pending ht new extra
    have h3 := hI.wgEq
    rw [htasks]
    omega
  · intro h; rw [e1, hc] at h; cases h
  · intro h; rw [e2] at h; exact absurd h hw
  · rw [e1, e2]; exact hI.supClosed
  · rw [e1, e5]; exact hI.closesEq
  · intro n h; rw [e3, hr] at h; cases h
  · exact hchan
  · intro x hx l hl
    rw [htasks] at hx
    rcases mem_replaceAt hx with hx | hx
    · exact hI.refsOk x hx l hl
    · exact hfin x hx l hl

theorem inv_step {fetch : String → FetchResult} {reduce : Int → String → Int}
    {P : String → Prop} (hP : ∀ u, P u → ∀ l ∈ children fetch u, P l)
    {s s' : State} {a : Action} (hI : Invariant P s)
    (h : step fetch reduce s a = some s') : Invariant P s' := by
  have hp := hI.noPanic
  cases a with
  | task i =>
    rcases ht : s.tasks[i]? with _ | t
    · simp [step, hp, ht] at h
    · obtain ⟨hc, hw, hr, hpos⟩ := inv_task_facts hI ht
      have hfin := hI.refsOk t (mem_tasks ht)
      have hcap := hI.chanBound
      cases t with
      | fetching url =>
        simp only [step, hp, ht, Bool.false_eq_true, if_false, Option.some.injEq] at h
        subst h
        refine inv_task_update hI ht [getUrlsFromSitemap (fetch url)] [] _ (by simp) ?_ hcap ?_
          (by simp [hp])
        · rcases getUrlsFromSitemap_cases (fetch url) with ⟨es, h⟩ | ⟨es, h⟩ | h <;>
            simp [h, Task.pending]
        · intro x hx l hl
          simp only [List.mem_singleton, List.mem_nil_iff, or_false] at hx
          subst hx
          rw [refs_decode] at hl
          exact hP url (hfin url (by simp [Task.refs])) l hl
      | spawning rest =>
        cases rest with
        | nil =>
          simp only [step, hp, ht, Bool.false_eq_true, if_false] at h
          rw [if_neg (by omega)] at h
          simp only [Option.some.injEq] at h
          subst h
          refine inv_task_update hI ht [] [] _ (by simp) ?_ hcap ?_ (by simp [hp])
          · simp [Task.pending]
          · simp
        | cons e rest =>
          simp only [step, hp, ht, Bool.false_eq_true, if_false, Option.some.injEq] at h
          subst h
          refine inv_task_update hI ht [.launching e.Loc rest] [] _ (by simp) ?_ hcap ?_
            (by simp [hp])
          · simp [Task.pending]; ring
          · intro x hx l hl
            simp only [List.mem_singleton, List.mem_nil_iff, or_false] at hx
            subst hx
            exact hfin l (by simpa [Task.refs, Task.spawns] using hl)
      | launching loc rest =>
        simp only [step, hp, ht, Bool.false_eq_true, if_false, Option.some.injEq] at h
        subst h
        refine inv_task_update hI ht [.spawning rest] [.fetching loc] _ rfl ?_ hcap ?_
          (by simp [hp])
        · simp [Task.pending]; ring
        · intro x hx l hl
          simp only [List.mem_singleton] at hx
          rcases hx with rfl | rfl
          · exact hfin l (by
              simp only [Task.refs, Task.spawns, List.mem_cons] at hl ⊢
              exact Or.inr hl)
          · exact hfin l (by
              simp only [Task.refs, List.mem_singleton] at hl
              simp [Task.refs, Task.spawns, hl])
      | sending rest =>
        cases rest with
        | nil =>
          simp only [step, hp, ht, Bool.false_eq_true, if_false] at h
          rw [if_neg (by omega)] at h
          simp only [Option.some.injEq] at h
          subst h
          refine inv_task_update hI ht [] [] _ (by simp) ?_ hcap ?_ (by simp [hp])
          · simp [Task.pending]
          · simp
        | cons e rest =>
          simp only [step, hp, ht, Bool.false_eq_true, if_false, hc] at h
          split at h
          · simp only [Option.some.injEq] at h
            subst h
            refine inv_task_update hI ht [.sending rest] [] _ (by simp) ?_ ?_ ?_
              (by simp [hp, hc])
            · simp [Task.pending]
            · simp only [List.length_append, List.length_singleton]; omega
            · simp [Task.refs, Task.spawns]
          · cases h
      | returning =>
        simp only [step, hp, ht, Bool.false_eq_true, if_false] at h
        rw [if_neg (by omega)] at h
        simp only [Option.some.injEq] at h
        subst h
        refine inv_task_update hI ht [] [] _ (by simp) ?_ hcap ?_ (by simp [hp])
        · simp [Task.pending]
        · simp
  | supervisor =>
    simp only [step, hp, Bool.false_eq_true, if_false] at h
    have hc : s.supervisor ≠ .exited → s.closed = false := by
      intro hne
      cases hcl : s.closed with
      | false => rfl
      | true => exact absurd (hI.supClosed.1 hcl) hne
    cases hs : s.supervisor with
    | waiting =>
      simp only [hs] at h
      split at h
      · rename_i hz
        simp only [Option.some.injEq] at h
        subst h
        have hc := hc (by rw [hs]; simp)
        have hsum : (s.tasks.map Task.pending).sum = 0 := by
          have := hI.wgEq; omega
        have hnil : s.tasks = [] := by
          cases hts : s.tasks with
          | nil => rfl
          | cons t ts =>
            rw [hts] at hsum
            have := pending_pos t
            simp only [List.map_cons, List.sum_cons] at hsum
            omega
        exact
          { noPanic := rfl
            wgEq := hI.wgEq
            closedTasks := hI.closedTasks
            wokenTasks := fun _ => hnil
            supClosed := by simp [hc]
            closesEq := hI.closesEq
            resultDone := hI.resultDone
            chanBound := hI.chanBound
            refsOk := hI.refsOk }
      · cases h
    | woken =>
      have hc := hc (by rw [hs]; simp)
      simp only [hs, hc, Bool.false_eq_true, if_false, Option.some.injEq] at h
      subst h
      have hnil := hI.wokenTasks hs
      have hr : s.result = none := by
        cases hr : s.result with
        | none => rfl
        | some n =>
          have := (hI.resultDone n hr).1
          rw [hc] at this; cases this
      have hcl := hI.closesEq
      exact
        { noPanic := rfl
          wgEq := hI.wgEq
          closedTasks := fun _ => hnil
          wokenTasks := fun h => by cases h
          supClosed := by simp
          closesEq := by simp [hcl, hc]
          resultDone := fun n h => by simp [hr] at h
          chanBound := hI.chanBound
          refsOk := hI.refsOk }
    | exited => simp [hs] at h
  | aggregator =>
    simp only [step, hp, Bool.false_eq_true, if_false] at h
    cases hr : s.result with
    | some n => simp [hr] at h
    | none =>
      simp only [hr] at h
      cases hch : s.urlsChan with
      | cons url rest =>
        simp only [hch, Option.some.injEq] at h
        subst h
        have hb := hI.chanBound
        exact
          { noPanic := rfl
            wgEq := hI.wgEq
            closedTasks := hI.closedTasks
            wokenTasks := hI.wokenTasks
            supClosed := hI.supClosed
            closesEq := hI.closesEq
            resultDone := fun n h => by simp at h
            chanBound := by
              rw [hch] at hb
              simp only [List.length_cons] at hb ⊢; omega
            refsOk := hI.refsOk }
      | nil =>
        simp only [hch] at h
        split at h
        · rename_i hcl
          simp only [Option.some.injEq] at h
          subst h
          exact
            { noPanic := rfl
              wgEq := hI.wgEq
              closedTasks := hI.closedTasks
              wokenTasks := hI.wokenTasks
              supClosed := hI.supClosed
              closesEq := hI.closesEq
              resultDone := fun n h => by
                simp only [Option.some.injEq] at h
                exact ⟨hcl, rfl, h.symm⟩
              chanBound := by simp
              refsOk := hI.refsOk }
        · cases h

theorem inv_run {fetch : String → FetchResult} {reduce : Int → String → Int}
    {P : String → Prop} (hP : ∀ u, P u → ∀ l ∈ children fetch u, P l)
    {s s' : State} {as : List Action} (hI : Invariant P s)
    (h : run fetch reduce s as = some s') : Invariant P s' := by
  induction as generalizing s with
  | nil => simp only [run, Option.some.injEq] at h; subst h; exact hI
  | cons a as ih =>
    simp only [run] at h
    cases hs : step fetch reduce s a with
    | none => simp [hs] at h
    | some s1 =>
      simp only [hs] at h
      exact ih (inv_step hP hI hs) h

/-! ## Every step consumes one unit of the variant and keeps the leaf count -/

theorem task_update_measures {fetch : String → FetchResult} {D : Nat} {s : State}
    {i : Nat} {t : Task} (ht : s.tasks[i]? = some t)
    (new extra : List Task) (s' : State)
    (htasks : s'.tasks = replaceAt s.tasks i new ++ extra)
    (hcost : ((new ++ extra).map (Task.cost (foldTree fetch (costBase fetch) D))).sum
        + s'.urlsChan.length + 1
      = Task.cost (foldTree fetch (costBase fetch) D) t + s.urlsChan.length)
    (htotal : ((new ++ extra).map (Task.total (totalLeaves fetch D))).sum
        + s'.urlsChan.length
      = Task.total (totalLeaves fetch D) t + s.urlsChan.length)
    (hrest : s'.supervisor = s.supervisor ∧ s'.result = s.result ∧ s'.count = s.count) :
    stepsLeft fetch D s' + 1 = stepsLeft fetch D s
      ∧ leafCount fetch D s' = leafCount fetch D s := by
  obtain ⟨e1, e2, e3⟩ := hrest
  have h1 := sum_replaceAt (Task.cost (foldTree fetch (costBase fetch) D)) ht new extra
  have h2 := sum_replaceAt (Task.total (totalLeaves fetch D)) ht new extra
  simp only [List.map_append, List.sum_append] at hcost htotal
  unfold stepsLeft leafCount
  rw [htasks, e1, e2, e3]
  constructor
  · omega
  · omega

theorem step_measures {fetch : String → FetchResult} {reduce : Int → String → Int}
    {D : Nat} {s s' : State} {a : Action} (hI : Inv fetch D s)
    (h : step fetch reduce s a = some s') :
    stepsLeft fetch D s' + 1 = stepsLeft fetch D s
      ∧ (reduce = countBody → leafCount fetch D s' = leafCount fetch D s) := by
  have hp := hI.noPanic
  cases a with
  | task i =>
    suffices hs : stepsLeft fetch D s' + 1 = stepsLeft fetch D s
        ∧ leafCount fetch D s' = leafCount fetch D s from ⟨hs.1, fun _ => hs.2⟩
    rcases ht : s.tasks[i]? with _ | t
    · simp [step, hp, ht] at h
    · obtain ⟨hc, hw, hr, hpos⟩ := inv_task_facts hI ht
      have hfin := hI.refsOk t (mem_tasks ht)
      cases t with
      | fetching url =>
        simp only [step, hp, ht, Bool.false_eq_true, if_false, Option.some.injEq] at h
        subst h
        have hf := hfin url (by simp [Task.refs])
        refine task_update_measures ht [getUrlsFromSitemap (fetch url)] [] _ (by simp) ?_ ?_
          (by simp)
        · have := cost_decode fetch D url hf
          have e : Task.cost (foldTree fetch (costBase fetch) D) (.fetching url)
              = foldTree fetch (costBase fetch) D url := rfl
          simp only [List.map_cons, List.map_nil, List.sum_cons, List.sum_nil, List.append_nil,
              List.cons_append, List.nil_append, e]
          omega
        · have := total_decode fetch D url hf
          have e : Task.total (totalLeaves fetch D) (.fetching url)
              = totalLeaves fetch D url := rfl
          simp only [List.map_cons, List.map_nil, List.sum_cons, List.sum_nil, List.append_nil,
              List.cons_append, List.nil_append, e]
          omega
      | spawning rest =>
        cases rest with
        | nil =>
          simp only [step, hp, ht, Bool.false_eq_true, if_false] at h
          rw [if_neg (by omega)] at h
          simp only [Option.some.injEq] at h
          subst h
          exact task_update_measures ht [] [] _ (by simp) (by simp [Task.cost]; omega)
            (by simp [Task.total]) (by simp)
        | cons e rest =>
          simp only [step, hp, ht, Bool.false_eq_true, if_false, Option.some.injEq] at h
          subst h
          refine task_update_measures ht [.launching e.Loc rest] [] _ (by simp) ?_ ?_ (by simp)
          · simp only [List.map_cons, List.map_nil, List.sum_cons, List.sum_nil, List.append_nil,
              List.cons_append, List.nil_append, Task.cost]
            omega
          · simp only [List.map_cons, List.map_nil, List.sum_cons, List.sum_nil, List.append_nil,
              List.cons_append, List.nil_append, Task.total]
            omega
      | launching loc rest =>
        simp only [step, hp, ht, Bool.false_eq_true, if_false, Option.some.injEq] at h
        subst h
        refine task_update_measures ht [.spawning rest] [.fetching loc] _ rfl ?_ ?_ (by simp)
        · simp only [List.map_cons, List.map_nil, List.sum_cons, List.sum_nil, List.append_nil,
              List.cons_append, List.nil_append, Task.cost]
          omega
        · simp only [List.map_cons, List.map_nil, List.sum_cons, List.sum_nil, List.append_nil,
              List.cons_append, List.nil_append, Task.total]
          omega
      | sending rest =>
        cases rest with
        | nil =>
          simp only [step, hp, ht, Bool.false_eq_true, if_false] at h
          rw [if_neg (by omega)] at h
          simp only [Option.some.injEq] at h
          subst h
          exact task_update_measures ht [] [] _ (by simp) (by simp [Task.cost]; omega)
            (by simp [Task.total]) (by simp)
        | cons e rest =>
          simp only [step, hp, ht, Bool.false_eq_true, if_false, hc] at h
          split at h
          · simp only [Option.some.injEq] at h
            subst h
            refine task_update_measures ht [.sending rest] [] _ (by simp) ?_ ?_ (by simp)
            · simp only [List.map_cons, List.map_nil, List.sum_cons, List.sum_nil, List.append_nil,
              List.cons_append, List.nil_append, Task.cost,
                List.length_append, List.length_cons, List.length_nil]
              omega
            · simp only [List.map_cons, List.map_nil, List.sum_cons, List.sum_nil, List.append_nil,
              List.cons_append, List.nil_append,
                Task.total, List.length_append, List.length_cons, List.length_nil]
              omega
          · cases h
      | returning =>
        simp only [step, hp, ht, Bool.false_eq_true, if_false] at h
        rw [if_neg (by omega)] at h
        simp only [Option.some.injEq] at h
        subst h
        exact task_update_measures ht [] [] _ (by simp) (by simp [Task.cost]; omega)
          (by simp [Task.total]) (by simp)
  | supervisor =>
    simp only [step, hp, Bool.false_eq_true, if_false] at h
    cases hs : s.supervisor with
    | waiting =>
      simp only [hs] at h
      split at h
      · simp only [Option.some.injEq] at h
        subst h
        simp only [stepsLeft, leafCount, hs, Supervisor.cost]
        exact ⟨by omega, fun _ => trivial⟩
      · cases h
    | woken =>
      simp only [hs] at h
      split at h
      · simp only [Option.some.injEq] at h
        rename_i hcl
        have := hI.supClosed.1 hcl
        rw [hs] at this; cases this
      · simp only [Option.some.injEq] at h
        subst h
        simp only [stepsLeft, leafCount, hs, Supervisor.cost]
        exact ⟨by omega, fun _ => trivial⟩
    | exited => simp [hs] at h
  | aggregator =>
    simp only [step, hp, Bool.false_eq_true, if_false] at h
    cases hr : s.result with
    | some n => simp [hr] at h
    | none =>
      simp only [hr] at h
      cases hch : s.urlsChan with
      | cons url rest =>
        simp only [hch, Option.some.injEq] at h
        subst h
        simp only [stepsLeft, leafCount, hch, hr, List.length_cons, if_true]
        refine ⟨by omega, fun hred => ?_⟩
        subst hred
        simp only [countBody]
        push_cast
        ring
      | nil =>
        simp only [hch] at h
        split at h
        · simp only [Option.some.injEq] at h
          subst h
          simp only [stepsLeft, leafCount, hch, hr, List.length_nil, if_true]
          exact ⟨by simp, fun _ => trivial⟩
        · cases h

theorem run_measures {fetch : String → FetchResult} {reduce : Int → String → Int}
    {D : Nat} {s s' : State} {as : List Action} (hI : Inv fetch D s)
    (h : run fetch reduce s as = some s') :
    stepsLeft fetch D s' + as.length = stepsLeft fetch D s
      ∧ (reduce = countBody → leafCount fetch D s' = leafCount fetch D s) := by
  induction as generalizing s with
  | nil => simp only [run, Option.some.injEq] at h; subst h; simp
  | cons a as ih =>
    simp only [run] at h
    cases hs : step fetch reduce s a with
    | none => simp [hs] at h
    | some s1 =>
      simp only [hs] at h
      obtain ⟨h1, h2⟩ := step_measures hI hs
      obtain ⟨h3, h4⟩ := ih (inv_step (finiteDepth_children fetch D) hI hs) h
      refine ⟨by simp only [List.length_cons]; omega, fun hred => ?_⟩
      rw [h4 hred, h2 hred]

/-! ## Progress and completion -/

theorem progress (fetch : String → FetchResult) (reduce : Int → String → Int)
    {P : String → Prop} {s : State} (hI : Invariant P s) (hr : s.result = none) :
    ∃ a s', step fetch reduce s a = some s' := by
  have hp := hI.noPanic
  suffices h : ∃ a, (step fetch reduce s a).isSome = true by
    obtain ⟨a, ha⟩ := h
    obtain ⟨s', hs'⟩ := Option.isSome_iff_exists.1 ha
    exact ⟨a, s', hs'⟩
  cases hts : s.tasks with
  | nil =>
    cases hs : s.supervisor with
    | waiting =>
      have hwg : s.wg = 0 := by have := hI.wgEq; rw [hts] at this; simpa using this
      exact ⟨.supervisor, by simp [step, hp, hs, hwg]⟩
    | woken =>
      have hc : s.closed = false := by
        cases hcl : s.closed with
        | false => rfl
        | true => have := hI.supClosed.1 hcl; rw [hs] at this; cases this
      exact ⟨.supervisor, by simp [step, hp, hs, hc]⟩
    | exited =>
      have hc : s.closed = true := hI.supClosed.2 hs
      cases hch : s.urlsChan with
      | nil => exact ⟨.aggregator, by simp [step, hp, hr, hch, hc]⟩
      | cons url rest => exact ⟨.aggregator, by simp [step, hp, hr, hch]⟩
  | cons t ts =>
    have ht : s.tasks[0]? = some t := by rw [hts]; simp
    obtain ⟨hc, _, _, hpos⟩ := inv_task_facts hI ht
    have hwg : ¬ s.wg ≤ 0 := by omega
    rw [hts] at ht
    cases t with
    | fetching url => exact ⟨.task 0, by simp [step, hp, hts]⟩
    | spawning rest =>
      cases rest with
      | nil => exact ⟨.task 0, by simp [step, hp, hts, hwg]⟩
      | cons e rest => exact ⟨.task 0, by simp [step, hp, hts]⟩
    | launching loc rest => exact ⟨.task 0, by simp [step, hp, hts]⟩
    | sending rest =>
      cases rest with
      | nil => exact ⟨.task 0, by simp [step, hp, hts, hwg]⟩
      | cons e rest =>
        by_cases hlen : s.urlsChan.length < chanCap
        · exact ⟨.task 0, by simp [step, hp, hts, hc, hlen]⟩
        · cases hch : s.urlsChan with
          | nil => rw [hch] at hlen; simp [chanCap] at hlen
          | cons url rest => exact ⟨.aggregator, by simp [step, hp, hr, hch]⟩
    | returning => exact ⟨.task 0, by simp [step, hp, hts, hwg]⟩

theorem run_append (fetch : String → FetchResult) (reduce : Int → String → Int)
    (s : State) (as bs : List Action) :
    run fetch reduce s (as ++ bs)
      = (run fetch reduce s as).bind fun s' => run fetch reduce s' bs := by
  induction as generalizing s with
  | nil => simp [run]
  | cons a as ih =>
    simp only [List.cons_append, run]
    cases step fetch reduce s a with
    | none => simp
    | some s1 => simpa using ih s1

theorem completes (fetch : String → FetchResult) (reduce : Int → String → Int) {D : Nat}
    (n : Nat) : ∀ s : State, Inv fetch D s → stepsLeft fetch D s ≤ n →
      ∃ bs s', run fetch reduce s bs = some s' ∧ s'.result ≠ none := by
  induction n with
  | zero =>
    intro s hI hn
    cases hr : s.result with
    | some v => exact ⟨[], s, rfl, by simp [hr]⟩
    | none => simp [stepsLeft, hr] at hn
  | succ n ih =>
    intro s hI hn
    cases hr : s.result with
    | some v => exact ⟨[], s, rfl, by simp [hr]⟩
    | none =>
      obtain ⟨a, s1, hs⟩ := progress fetch reduce hI hr
      have hm := (step_measures hI hs).1
      obtain ⟨bs, s', hrun, hres⟩ :=
        ih s1 (inv_step (finiteDepth_children fetch D) hI hs) (by omega)
      exact ⟨a :: bs, s', by simp [run, hs, hrun], hres⟩

theorem result_facts {P : String → Prop} {s : State} (hI : Invariant P s) {n : Int}
    (hr : s.result = some n) :
    s.closed = true ∧ s.tasks = [] ∧ s.wg = 0 ∧ s.urlsChan = [] ∧ s.supervisor = .exited
      ∧ n = s.count := by
  obtain ⟨hc, hch, hn⟩ := hI.resultDone n hr
  have ht := hI.closedTasks hc
  have hwg := hI.wgEq
  rw [ht] at hwg
  exact ⟨hc, ht, by simpa using hwg, hch, hI.supClosed.1 hc, hn⟩

theorem result_total {fetch : String → FetchResult} {D : Nat} {start : String}
    (hfin : finiteDepth fetch D start = true) {as : List Action} {s : State} {n : Int}
    (hrun : run fetch countBody (init start) as = some s) (hr : s.result = some n) :
    n = totalLeaves fetch D start := by
  have hI0 : Inv fetch D (init start) := inv_init _ start hfin
  have hI := inv_run (finiteDepth_children fetch D) hI0 hrun
  have hcount := (run_measures hI0 hrun).2 rfl
  obtain ⟨_, ht, _, hch, _, hn⟩ := result_facts hI hr
  simp only [leafCount, ht, hch, init, Task.total, List.map_cons, List.map_nil,
    List.sum_cons, List.sum_nil, List.length_nil] at hcount
  rw [hn]
  simpa using hcount

/-! ## The aggregator's count is the fold of its loop body over the received items -/

theorem count_step {fetch : String → FetchResult} {reduce : Int → String → Int}
    {s s' : State} {a : Action} (hc : s.count = s.received.foldl reduce 0)
    (h : step fetch reduce s a = some s') : s'.count = s'.received.foldl reduce 0 := by
  cases a with
  | task i =>
    rcases ht : s.tasks[i]? with _ | t
    · simp [step, ht] at h
    · cases t with
      | fetching url =>
        simp only [step, ht] at h
        split_ifs at h
        simp only [Option.some.injEq] at h; subst h; exact hc
      | spawning rest =>
        cases rest <;> simp only [step, ht] at h <;> split_ifs at h <;>
          (simp only [Option.some.injEq] at h; subst h; exact hc)
      | launching loc rest =>
        simp only [step, ht] at h
        split_ifs at h
        simp only [Option.some.injEq] at h; subst h; exact hc
      | sending rest =>
        cases rest <;> simp only [step, ht] at h <;> split_ifs at h <;>
          (simp only [Option.some.injEq] at h; subst h; exact hc)
      | returning =>
        simp only [step, ht] at h
        split_ifs at h <;> (simp only [Option.some.injEq] at h; subst h; exact hc)
  | supervisor =>
    simp only [step] at h
    cases hs : s.supervisor <;> simp only [hs] at h <;> split_ifs at h <;>
      (simp only [Option.some.injEq] at h; subst h; exact hc)
  | aggregator =>
    simp only [step] at h
    cases hr : s.result with
    | some n => simp [hr] at h
    | none =>
      cases hch : s.urlsChan with
      | cons url rest =>
        simp only [hr, hch] at h
        split_ifs at h
        simp only [Option.some.injEq] at h
        subst h
        simp [List.foldl_append, hc]
      | nil =>
        simp only [hr, hch] at h
        split_ifs at h
        simp only [Option.some.injEq] at h; subst h; exact hc

theorem count_run {fetch : String → FetchResult} {reduce : Int → String → Int}
    {s s' : State} {as : List Action} (hc : s.count = s.received.foldl reduce 0)
    (h : run fetch reduce s as = some s') : s'.count = s'.received.foldl reduce 0 := by
  induction as generalizing s with
  | nil => simp only [run, Option.some.injEq] at h; subst h; exact hc
  | cons a as ih =>
    simp only [run] at h
    cases hs : step fetch reduce s a with
    | none => simp [hs] at h
    | some s1 =>
      simp only [hs] at h
      exact ih (count_step hc hs) h

/-! ## A task running alone -/

theorem state_eta (s : State) {i : Nat} {t : Task} (h : s.tasks[i]? = some t) :
    { s with wg := s.wg + ((0 : Nat) : Int), tasks := replaceAt s.tasks i [t] ++ [] } = s := by
  have h1 : replaceAt s.tasks i [t] ++ [] = s.tasks := by
    simp only [List.append_nil, replaceAt]
    simpa using (tasks_split h).symm
  rw [h1]
  simp

theorem run_spawning (fetch : String → FetchResult) (reduce : Int → String → Int) :
    ∀ (es : List LocEntry) (s : State) (i : Nat), s.panicked = false →
      s.tasks[i]? = some (.spawning es) →
      run fetch reduce s (List.replicate (2 * es.length) (.task i))
        = some { s with wg := s.wg + (es.length : Nat),
                        tasks := replaceAt s.tasks i [.spawning []]
                          ++ es.map fun e => .fetching e.Loc } := by
  intro es
  induction es with
  | nil =>
    intro s i _ ht
    simp only [List.length_nil, Nat.mul_zero, List.replicate_zero, run, List.map_nil]
    exact congrArg some (state_eta s ht).symm
  | cons e rest ih =>
    intro s i hp ht
    have h2 : 2 * (e :: rest).length = 2 * rest.length + 1 + 1 := by
      simp only [List.length_cons]; omega
    rw [h2, List.replicate_succ, List.replicate_succ]
    have ht1 := getElem?_replaceAt ht (Task.launching e.Loc rest) []
    have ht2 := getElem?_replaceAt ht (Task.spawning rest) [Task.fetching e.Loc]
    simp only [List.append_nil] at ht1
    have hr1 := replaceAt_replaceAt ht (Task.launching e.Loc rest) [] [Task.spawning rest]
    have hr2 := replaceAt_replaceAt ht (Task.spawning rest) [Task.fetching e.Loc]
      [Task.spawning []]
    simp only [List.append_nil] at hr1
    have key := ih { s with wg := s.wg + 1, panicked := false,
                            tasks := replaceAt s.tasks i [.spawning rest] ++ [.fetching e.Loc] }
      i rfl ht2
    simp only [run, step, hp, ht, ht1, Bool.false_eq_true, if_false, hr1]
    refine key.trans ?_
    simp only [hr2, List.map_cons, List.length_cons, List.append_assoc, List.singleton_append,
      Option.some.injEq, State.mk.injEq, and_true, true_and]
    push_cast
    ring

theorem run_sending (fetch : String → FetchResult) (reduce : Int → String → Int) :
    ∀ (es : List LocEntry) (s : State) (i : Nat), s.panicked = false → s.closed = false →
      s.urlsChan.length + es.length ≤ chanCap →
      s.tasks[i]? = some (.sending es) →
      run fetch reduce s (List.replicate es.length (.task i))
        = some { s with urlsChan := s.urlsChan ++ es.map (·.Loc),
                        tasks := replaceAt s.tasks i [.sending []] } := by
  intro es
  induction es with
  | nil =>
    intro s i _ _ _ ht
    have h1 := state_eta s ht
    simp only [List.length_nil, List.replicate_zero, run, List.map_nil, List.append_nil]
    simp only [List.append_nil, Nat.cast_zero, add_zero] at h1
    exact congrArg some h1.symm
  | cons e rest ih =>
    intro s i hp hc hlen ht
    simp only [List.length_cons] at hlen
    have hlt : s.urlsChan.length < chanCap := by omega
    have ht1 := getElem?_replaceAt ht (Task.sending rest) []
    have hr1 := replaceAt_replaceAt ht (Task.sending rest) [] [Task.sending []]
    simp only [List.append_nil] at ht1 hr1
    have key := ih { s with urlsChan := s.urlsChan ++ [e.Loc], panicked := false,
                            closed := false, tasks := replaceAt s.tasks i [.sending rest] }
      i rfl rfl (by simp only [List.length_append, List.length_singleton]; omega) ht1
    simp only [List.length_cons, List.replicate_succ, run, step, hp, hc, ht, hlt,
      Bool.false_eq_true, if_false, if_true]
    refine key.trans ?_
    simp [hr1]

theorem run_failed (fetch : String → FetchResult) (reduce : Int → String → Int)
    (s : State) (i : Nat) (url : String) (hp : s.panicked = false) (hwg : 0 < s.wg)
    (ht : s.tasks[i]? = some (.fetching url))
    (hf : getUrlsFromSitemap (fetch url) = .returning) :
    run fetch reduce s [.task i, .task i]
      = some { s with wg := s.wg - 1, tasks := replaceAt s.tasks i [] } := by
  have ht1 := getElem?_replaceAt ht Task.returning []
  have hr1 := replaceAt_replaceAt ht Task.returning [] []
  simp only [List.append_nil] at ht1 hr1
  have hwg' : ¬ s.wg ≤ 0 := by omega
  simp [run, step, hp, ht, hf, ht1, hr1, hwg']

/-! ## Aggregator -/

theorem countURLs_eq_length (items : List String) : countURLs items = (items.length : Nat) := by
  simp [countURLs, foldl_countBody]

theorem patternMatch_eq_countP (lower : Char → Char) (items : List String)
    (pattern : String) :
    patternMatch lower items pattern
      = ((items.countP fun u => Contains (ToLower lower u) (ToLower lower pattern) : Nat)
          : Int) := by
  simp [patternMatch, foldl_matchBody]

/-- C2 (pattern correctness): for every finite sequence of stream items and every pattern,
the value `patternMatch` yields is the number of items whose lower-casing contains the
lower-cased pattern as a contiguous substring; the pattern is compared literally, so a
pattern made of regular-expression operators matches only where these characters occur. -/
theorem patternMatch_counts_substring_matches (lower : Char → Char) (items : List String)
    (pattern : String) :
    patternMatch lower items pattern
        = ((items.countP fun u =>
              decide ((ToLower lower pattern).data <:+: (ToLower lower u).data) : Nat) : Int)
      ∧ patternMatch toLowerExcerpt ["https://x.io/abc", "https://x.io/a.c"] "a.c" = 1
      ∧ patternMatch toLowerExcerpt
          ["https://a.com/product-abc", "https://a.com/other"] "product" = 1 := by
  refine ⟨?_, by decide, by decide⟩
  rw [patternMatch_eq_countP]
  congr 2
  funext u
  simp only [Contains]
  rw [Bool.eq_iff_iff]
  simp only [containsAt_iff, decide_eq_true_eq]

/-- C8 (order independence): on a sequence of stream items and on any permutation of it
`countURLs` yields the same integer and `patternMatch` yields the same integer, and each
result is non-negative. -/
theorem reductions_order_independent (lower : Char → Char) (items items' : List String)
    (pattern : String) (h : items.Perm items') :
    countURLs items = countURLs items'
      ∧ patternMatch lower items pattern = patternMatch lower items' pattern
      ∧ 0 ≤ countURLs items ∧ 0 ≤ patternMatch lower items pattern := by
  refine ⟨?_, ?_, ?_, ?_⟩
  · rw [countURLs_eq_length, countURLs_eq_length, h.length_eq]
  · rw [patternMatch_eq_countP, patternMatch_eq_countP, h.countP_eq]
  · rw [countURLs_eq_length]; exact Int.natCast_nonneg _
  · rw [patternMatch_eq_countP]; exact Int.natCast_nonneg _

/-- Witness of C8: two orders of the same three URLs. -/
theorem reductions_order_independent_witness :
    ["u/abc", "v", "w/ABC"].Perm ["v", "w/ABC", "u/abc"]
      ∧ (countURLs ["u/abc", "v", "w/ABC"] = countURLs ["v", "w/ABC", "u/abc"]
        ∧ patternMatch toLowerExcerpt ["u/abc", "v", "w/ABC"] "Abc"
            = patternMatch toLowerExcerpt ["v", "w/ABC", "u/abc"] "Abc"
        ∧ 0 ≤ countURLs ["u/abc", "v", "w/ABC"]
        ∧ 0 ≤ patternMatch toLowerExcerpt ["u/abc", "v", "w/ABC"] "Abc") :=
  ⟨by decide,
   reductions_order_independent toLowerExcerpt ["u/abc", "v", "w/ABC"] ["v", "w/ABC", "u/abc"]
    "Abc" (by decide)⟩

/-- C7 as stated fails: the upper-casing of the pattern U+0131 is the ASCII letter `I`,
whose lower-casing is `i`; a URL that contains U+0131 matches the first pattern and not
the second. -/
theorem patternMatch_case_counterexample :
    ToUpper toUpperExcerpt dotlessI = "I"
      ∧ patternMatch toLowerExcerpt ["https://a.com/" ++ dotlessI] dotlessI = 1
      ∧ patternMatch toLowerExcerpt ["https://a.com/" ++ dotlessI]
          (ToUpper toUpperExcerpt dotlessI) = 0 := by
  decide

/-- C7 (amended): two patterns with the same lower-casing yield the same count on every
sequence of stream items; this covers a pattern and its upper-casing whenever lowering
the upper case of each of its code points gives the lower case of that code point, as
for every ASCII letter; pattern `ABC` against one URL containing `abc` gives 1. -/
theorem patternMatch_case_invariant (lower upper : Char → Char) (items : List String)
    (P P' : String) (h : ToLower lower P = ToLower lower P') :
    patternMatch lower items P = patternMatch lower items P'
      ∧ ((∀ c ∈ P.data, lower (upper c) = lower c) →
          patternMatch lower items (ToUpper upper P) = patternMatch lower items P)
      ∧ patternMatch toLowerExcerpt ["https://a.com/xabcx"] "ABC" = 1 := by
  refine ⟨?_, ?_, by decide⟩
  · simp only [patternMatch, h]
  · intro hc
    have : ToLower lower (ToUpper upper P) = ToLower lower P := by
      simp only [ToLower, ToUpper, List.map_map]
      congr 1
      apply List.map_congr_left
      intro c hc'
      exact hc c hc'
    simp only [patternMatch, this]

/-- Witness of C7 (amended): the patterns `abc` and `ABC`. -/
theorem patternMatch_case_invariant_witness :
    ToLower toLowerExcerpt "abc" = ToLower toLowerExcerpt "ABC"
      ∧ (patternMatch toLowerExcerpt ["https://a.com/xabcx", "https://a.com/y"] "abc"
          = patternMatch toLowerExcerpt ["https://a.com/xabcx", "https://a.com/y"] "ABC"
        ∧ ((∀ c ∈ "abc".data, toLowerExcerpt (toUpperExcerpt c) = toLowerExcerpt c) →
          patternMatch toLowerExcerpt ["https://a.com/xabcx", "https://a.com/y"]
              (ToUpper toUpperExcerpt "abc")
            = patternMatch toLowerExcerpt ["https://a.com/xabcx", "https://a.com/y"] "abc")
        ∧ patternMatch toLowerExcerpt ["https://a.com/xabcx"] "ABC" = 1) :=
  ⟨by decide,
   patternMatch_case_invariant toLowerExcerpt toUpperExcerpt
    ["https://a.com/xabcx", "https://a.com/y"] "abc" "ABC" (by decide)⟩

/-! ## `getSitemapsFromRobots` -/

theorem robotsLoop_eq (acc lines : List String) :
    robotsLoop acc lines
      = acc ++ lines.filterMap fun line =>
          if "Sitemap: ".data <+: line.data then some ⟨line.data.drop 9⟩ else none := by
  induction lines generalizing acc with
  | nil => simp [robotsLoop]
  | cons line rest ih =>
    by_cases h : "Sitemap: ".data <+: line.data
    · have h' : HasPrefix line "Sitemap: " = true := (hasPrefix_iff _ _).2 h
      have hlen : "Sitemap: ".data.length = 9 := by decide
      simp only [robotsLoop, h', if_true, ih, TrimPrefix, hlen, List.filterMap_cons, h,
        List.append_assoc, List.singleton_append]
    · have h' : ¬ HasPrefix line "Sitemap: " = true := fun hp => h ((hasPrefix_iff _ _).1 hp)
      simp only [robotsLoop, h', if_false, ih, List.filterMap_cons, h]
      simp

/-- C10 (root-document line scan): for a robots.txt body read without error,
`getSitemapsFromRobots` returns, in document order and keeping duplicates, the remainder
of each scanned line that starts with the exact prefix `Sitemap: `, the prefix removed
once; a line with the prefix is the prefix followed by that remainder; lines with a
lower-case `sitemap: `, without the space or with leading whitespace give nothing. -/
theorem getSitemapsFromRobots_line_scan (data : String) :
    getSitemapsFromRobots (.body data false)
        = some ((scanLines data).filterMap fun line =>
            if "Sitemap: ".data <+: line.data then some ⟨line.data.drop 9⟩ else none)
      ∧ (∀ line : String, "Sitemap: ".data <+: line.data →
          line = "Sitemap: " ++ ⟨line.data.drop 9⟩)
      ∧ getSitemapsFromRobots
          (.body "sitemap: a\nSitemap:b\n Sitemap: c\nSitemap: d\r\nSitemap: d\nSitemap: Sitemap: e"
            false)
        = some ["d", "d", "Sitemap: e"] := by
  refine ⟨?_, ?_, by decide⟩
  · simp [getSitemapsFromRobots, robotsLoop_eq]
  · intro line h
    obtain ⟨t, ht⟩ := h
    apply String.ext
    have hlen : "Sitemap: ".data.length = 9 := by decide
    rw [String.data_append, ← ht, ← hlen, List.drop_left]

/-! ## Crawler -/

theorem crawl_completes {fetch : String → FetchResult} {D : Nat} {start : String}
    (hfin : finiteDepth fetch D start = true) {as : List Action} {s : State}
    (hrun : run fetch countBody (init start) as = some s) :
    ∃ bs s', run fetch countBody s bs = some s'
      ∧ s'.result = some (totalLeaves fetch D start : Int) := by
  have hI0 : Inv fetch D (init start) := inv_init _ start hfin
  have hI := inv_run (finiteDepth_children fetch D) hI0 hrun
  obtain ⟨bs, s', hbs, hres⟩ :=
    completes fetch countBody (stepsLeft fetch D s) s hI (Nat.le_refl _)
  refine ⟨bs, s', hbs, ?_⟩
  cases hr : s'.result with
  | none => exact absurd hr hres
  | some n =>
    have hall : run fetch countBody (init start) (as ++ bs) = some s' := by
      rw [run_append, hrun]; exact hbs
    rw [result_total hfin hall hr]

theorem totalLeaves_of_returning (fetch : String → FetchResult) (D : Nat) (url : String)
    (hs : (getUrlsFromSitemap (fetch url)).spawns = [])
    (he : (getUrlsFromSitemap (fetch url)).emits = []) :
    finiteDepth fetch (D + 1) url = true ∧ totalLeaves fetch (D + 1) url = 0 := by
  simp [finiteDepth, totalLeaves, foldTree, children, leaves, hs, he]

/-- C1 (count correctness): over a finite acyclic reference tree rooted at `start`, of
depth below `d` and holding `totalLeaves fetch d start` leaf URLs counted with
multiplicity, every schedule that makes the aggregator deliver its result delivers the
value of `countURLs` on the items drained from the stream, and this is that number; every
schedule can be continued until the result is delivered; and an index or leaf document
with zero entries holds 0 leaf URLs. -/
theorem countURLs_crawl_total (fetch : String → FetchResult) (start : String) (d : Nat)
    (hfin : finiteDepth fetch d start = true) :
    (∀ as s n, run fetch countBody (init start) as = some s → s.result = some n →
        n = countURLs s.received ∧ n = (totalLeaves fetch d start : Int))
      ∧ (∀ as s, run fetch countBody (init start) as = some s →
          ∃ bs s', run fetch countBody s bs = some s'
            ∧ s'.result = some (totalLeaves fetch d start : Int))
      ∧ (∀ url D, getUrlsFromSitemap (fetch url) = .spawning []
            ∨ getUrlsFromSitemap (fetch url) = .sending [] →
          totalLeaves fetch D url = 0) := by
  refine ⟨fun as s n h1 h2 => ⟨?_, result_total hfin h1 h2⟩,
    fun as s h => crawl_completes hfin h, ?_⟩
  · have hI := inv_run (finiteDepth_children fetch d) (inv_init _ start hfin) h1
    rw [(result_facts hI h2).2.2.2.2.2]
    exact count_run rfl h1
  intro url D h
  cases D with
  | zero => rfl
  | succ D =>
    rcases h with h | h <;>
      exact (totalLeaves_of_returning fetch D url (by simp [h, Task.spawns])
        (by simp [h, Task.emits])).2

/-- Witness of C1: the example index with leaf documents of 3 and 5 URLs gives 8. -/
theorem countURLs_crawl_total_witness :
    finiteDepth exampleFetch 2 "index" = true
      ∧ totalLeaves exampleFetch 2 "index" = 8
      ∧ ((∀ as s n, run exampleFetch countBody (init "index") as = some s →
            s.result = some n →
            n = countURLs s.received ∧ n = (totalLeaves exampleFetch 2 "index" : Int))
        ∧ (∀ as s, run exampleFetch countBody (init "index") as = some s →
            ∃ bs s', run exampleFetch countBody s bs = some s'
              ∧ s'.result = some (totalLeaves exampleFetch 2 "index" : Int))
        ∧ (∀ url D, getUrlsFromSitemap (exampleFetch url) = .spawning []
              ∨ getUrlsFromSitemap (exampleFetch url) = .sending [] →
            totalLeaves exampleFetch D url = 0)) :=
  ⟨by decide, by decide, countURLs_crawl_total exampleFetch "index" 2 (by decide)⟩

theorem returning_of_failed (fetch : String → FetchResult) (c : String)
    (hfail : fetch c = .getError ∨ (∃ st, fetch c = .readError st)
      ∨ ∃ st body, fetch c = .response st body ∧ unmarshalSitemapIndex body = none
          ∧ unmarshalURLSet body = none) :
    getUrlsFromSitemap (fetch c) = .returning := by
  rcases hfail with h | ⟨st, h⟩ | ⟨st, body, h, h1, h2⟩
  · rw [h]; rfl
  · rw [h]; rfl
  · rw [h]; simp [getUrlsFromSitemap, h1, h2]

theorem isolated_total (fetch : String → FetchResult) (start c : String)
    (pre post : List String) (d : Nat)
    (hroot : children fetch start = pre ++ c :: post)
    (hret : getUrlsFromSitemap (fetch c) = .returning)
    (hfin : ∀ l ∈ pre ++ post, finiteDepth fetch d l = true) :
    finiteDepth fetch (d + 2) start = true
      ∧ totalLeaves fetch (d + 2) start = ((pre ++ post).map (totalLeaves fetch d)).sum := by
  have hc := totalLeaves_of_returning fetch d c (by simp [hret, Task.spawns])
    (by simp [hret, Task.emits])
  have hfin' : ∀ l ∈ pre ++ post, finiteDepth fetch (d + 1) l = true :=
    fun l hl => finiteDepth_succ fetch d l (hfin l hl)
  have htot : ∀ l ∈ pre ++ post, totalLeaves fetch (d + 1) l = totalLeaves fetch d l :=
    fun l hl => foldTree_succ fetch _ d l (hfin l hl)
  have hleaves : leaves fetch start = [] := by
    unfold children at hroot
    unfold leaves
    rcases getUrlsFromSitemap_cases (fetch start) with ⟨es, h⟩ | ⟨es, h⟩ | h
    · simp [h, Task.emits]
    · rw [h] at hroot; simp [Task.spawns] at hroot
    · rw [h] at hroot; simp [Task.spawns] at hroot
  constructor
  · rw [finiteDepth, hroot, List.all_eq_true]
    intro l hl
    simp only [List.mem_append, List.mem_cons] at hl
    rcases hl with hl | rfl | hl
    · exact hfin' l (by simp [hl])
    · exact hc.1
    · exact hfin' l (by simp [hl])
  · have e1 : totalLeaves fetch (d + 2) start
        = (leaves fetch start).length
          + ((children fetch start).map (totalLeaves fetch (d + 1))).sum := rfl
    have e2 : (pre.map (totalLeaves fetch (d + 1))).sum = (pre.map (totalLeaves fetch d)).sum :=
      congrArg List.sum (List.map_congr_left fun l hl => htot l (by simp [hl]))
    have e3 : (post.map (totalLeaves fetch (d + 1))).sum
        = (post.map (totalLeaves fetch d)).sum :=
      congrArg List.sum (List.map_congr_left fun l hl => htot l (by simp [hl]))
    rw [e1, hleaves, hroot]
    simp only [List.length_nil, List.map_append, List.map_cons, List.sum_append, List.sum_cons,
      hc.2, e2, e3]
    omega

/-- C3 (partial-failure isolation): when `start` is an index document and the fetch of its
child `c` fails or the body of `c` decodes against neither schema, the task of `c` returns
after its fetch having written nothing to the stream and spawned nothing, whatever else is
running; the count delivered for `start` is the sum of the leaf URLs of the subtrees of the
remaining children only, and every schedule can be continued until it is delivered. -/
theorem failure_isolation (fetch : String → FetchResult) (start c : String)
    (pre post : List String) (d : Nat)
    (hroot : children fetch start = pre ++ c :: post)
    (hfail : fetch c = .getError ∨ (∃ st, fetch c = .readError st)
      ∨ ∃ st body, fetch c = .response st body ∧ unmarshalSitemapIndex body = none
          ∧ unmarshalURLSet body = none)
    (hfin : ∀ l ∈ pre ++ post, finiteDepth fetch d l = true) :
    (∀ (reduce : Int → String → Int) (s : State) (i : Nat), s.panicked = false → 0 < s.wg →
        s.tasks[i]? = some (.fetching c) →
        run fetch reduce s [.task i, .task i]
          = some { s with wg := s.wg - 1, tasks := replaceAt s.tasks i [] })
      ∧ (∀ as s n, run fetch countBody (init start) as = some s → s.result = some n →
          n = ((((pre ++ post).map (totalLeaves fetch d)).sum : Nat) : Int))
      ∧ (∀ as s, run fetch countBody (init start) as = some s →
          ∃ bs s', run fetch countBody s bs = some s'
            ∧ s'.result = some ((((pre ++ post).map (totalLeaves fetch d)).sum : Nat) : Int)) := by
  have hret := returning_of_failed fetch c hfail
  obtain ⟨hf, ht⟩ := isolated_total fetch start c pre post d hroot hret hfin
  refine ⟨fun reduce s i hp hwg hti => run_failed fetch reduce s i c hp hwg hti hret, ?_, ?_⟩
  · intro as s n h1 h2
    rw [← ht]
    exact result_total hf h1 h2
  · intro as s h
    rw [← ht]
    exact crawl_completes hf h

/-- Witness of C3: in the example network `mixed` lists `down`, whose fetch fails, and
`c`, a leaf document with 4 URLs. -/
theorem failure_isolation_witness :
    (children exampleFetch "mixed" = [] ++ "down" :: ["c"]
      ∧ exampleFetch "down" = .getError
      ∧ (∀ l ∈ [] ++ ["c"], finiteDepth exampleFetch 1 l = true)
      ∧ (([] ++ ["c"]).map (totalLeaves exampleFetch 1)).sum = 4)
      ∧ ((∀ (reduce : Int → String → Int) (s : State) (i : Nat), s.panicked = false →
            0 < s.wg → s.tasks[i]? = some (.fetching "down") →
            run exampleFetch reduce s [.task i, .task i]
              = some { s with wg := s.wg - 1, tasks := replaceAt s.tasks i [] })
        ∧ (∀ as s n, run exampleFetch countBody (init "mixed") as = some s →
            s.result = some n →
            n = (((([] ++ ["c"]).map (totalLeaves exampleFetch 1)).sum : Nat) : Int))
        ∧ (∀ as s, run exampleFetch countBody (init "mixed") as = some s →
            ∃ bs s', run exampleFetch countBody s bs = some s'
              ∧ s'.result
                = some (((([] ++ ["c"]).map (totalLeaves exampleFetch 1)).sum : Nat) : Int))) :=
  ⟨⟨by decide, rfl, by decide, by decide⟩,
   failure_isolation exampleFetch "mixed" "down" [] ["c"] 1 (by decide)
    (Or.inl rfl) (by decide)⟩

/-! ## A leaf document as start reference: the items written, in order -/

theorem step_sending (fetch : String → FetchResult) (reduce : Int → String → Int)
    (s : State) (i : Nat) (e : LocEntry) (rest : List LocEntry) (hp : s.panicked = false)
    (hc : s.closed = false) (ht : s.tasks[i]? = some (.sending (e :: rest))) :
    (s.urlsChan.length < chanCap →
        step fetch reduce s (.task i)
          = some { s with urlsChan := s.urlsChan ++ [e.Loc],
                          tasks := replaceAt s.tasks i [.sending rest] })
      ∧ (¬ s.urlsChan.length < chanCap → step fetch reduce s (.task i) = none) := by
  constructor <;> intro h <;> simp [step, hp, hc, ht, h]

theorem supervisor_step_frame {fetch : String → FetchResult} {reduce : Int → String → Int}
    {s s' : State} (h : step fetch reduce s .supervisor = some s') :
    s'.tasks = s.tasks ∧ s'.received = s.received ∧ s'.urlsChan = s.urlsChan := by
  simp only [step] at h
  cases hs : s.supervisor <;> simp only [hs] at h <;> split_ifs at h <;>
    (simp only [Option.some.injEq] at h; subst h; exact ⟨rfl, rfl, rfl⟩)

theorem aggregator_step_frame {fetch : String → FetchResult} {reduce : Int → String → Int}
    {s s' : State} (h : step fetch reduce s .aggregator = some s') :
    s'.tasks = s.tasks ∧ s'.received ++ s'.urlsChan = s.received ++ s.urlsChan := by
  simp only [step] at h
  cases hr : s.result with
  | some n => simp [hr] at h
  | none =>
    cases hch : s.urlsChan with
    | cons url rest =>
      simp only [hr, hch] at h
      split_ifs at h
      simp only [Option.some.injEq] at h
      subst h
      exact ⟨rfl, by simp⟩
    | nil =>
      simp only [hr, hch] at h
      split_ifs at h
      simp only [Option.some.injEq] at h
      subst h
      exact ⟨rfl, by simp [hch]⟩

theorem leafInv_congr {start : String} {es : List LocEntry} {s s' : State}
    (ht : s'.tasks = s.tasks)
    (hw : s'.received ++ s'.urlsChan = s.received ++ s.urlsChan)
    (hJ : leafInv start es s) : leafInv start es s' := by
  unfold leafInv at hJ ⊢
  rw [ht, hw]
  exact hJ

theorem replaceAt_singleton (t : Task) (new : List Task) : replaceAt [t] 0 new = new := by
  simp [replaceAt]

theorem leafInv_step {fetch : String → FetchResult} {reduce : Int → String → Int}
    {start : String} {es : List LocEntry}
    (hstart : getUrlsFromSitemap (fetch start) = .sending es)
    {s s' : State} {a : Action} (hJ : leafInv start es s)
    (h : step fetch reduce s a = some s') : leafInv start es s' := by
  cases a with
  | supervisor =>
    obtain ⟨h1, h2, h3⟩ := supervisor_step_frame h
    exact leafInv_congr h1 (by rw [h2, h3]) hJ
  | aggregator =>
    obtain ⟨h1, h2⟩ := aggregator_step_frame h
    exact leafInv_congr h1 h2 hJ
  | task i =>
    cases hp : s.panicked with
    | true => simp [step, hp] at h
    | false =>
      rcases hJ with ⟨ht, hw⟩ | ⟨rest, ht, hw⟩ | ⟨ht, hw⟩
      · cases i with
        | succ i => simp [step, hp, ht] at h
        | zero =>
          simp only [step, hp, ht, List.getElem?_cons_zero, Option.some.injEq, hstart,
            replaceAt_singleton, Bool.false_eq_true, if_false] at h
          subst h
          refine Or.inr (Or.inl ⟨es, rfl, ?_⟩)
          show s.received ++ s.urlsChan ++ es.map (·.Loc) = es.map (·.Loc)
          rw [hw]; rfl
      · cases i with
        | succ i => simp [step, hp, ht] at h
        | zero =>
          cases rest with
          | nil =>
            simp only [step, hp, ht, List.getElem?_cons_zero, replaceAt_singleton,
              Bool.false_eq_true, if_false] at h
            split_ifs at h
            · simp only [Option.some.injEq] at h
              subst h
              exact Or.inr (Or.inl ⟨[], rfl, hw⟩)
            · simp only [Option.some.injEq] at h
              subst h
              refine Or.inr (Or.inr ⟨rfl, ?_⟩)
              show s.received ++ s.urlsChan = es.map (·.Loc)
              simpa using hw
          | cons e rest =>
            simp only [step, hp, ht, List.getElem?_cons_zero, replaceAt_singleton,
              Bool.false_eq_true, if_false] at h
            split_ifs at h
            · simp only [Option.some.injEq] at h
              subst h
              exact Or.inr (Or.inl ⟨e :: rest, rfl, hw⟩)
            · simp only [Option.some.injEq] at h
              subst h
              refine Or.inr (Or.inl ⟨rest, rfl, ?_⟩)
              show s.received ++ (s.urlsChan ++ [e.Loc]) ++ rest.map (·.Loc) = es.map (·.Loc)
              rw [← hw]
              simp
      · simp [step, hp, ht] at h

theorem leafInv_run {fetch : String → FetchResult} {reduce : Int → String → Int}
    {start : String} {es : List LocEntry}
    (hstart : getUrlsFromSitemap (fetch start) = .sending es)
    {s s' : State} {as : List Action} (hJ : leafInv start es s)
    (h : run fetch reduce s as = some s') : leafInv start es s' := by
  induction as generalizing s with
  | nil => simp only [run, Option.some.injEq] at h; subst h; exact hJ
  | cons a as ih =>
    simp only [run] at h
    cases hs : step fetch reduce s a with
    | none => simp [hs] at h
    | some s1 =>
      simp only [hs] at h
      exact ih (leafInv_step hstart hJ hs) h

theorem leaf_run_writes (fetch : String → FetchResult) (reduce : Int → String → Int)
    (start : String) (es : List LocEntry)
    (hstart : getUrlsFromSitemap (fetch start) = .sending es)
    (as : List Action) (s : State) (h : run fetch reduce (init start) as = some s) :
    s.received ++ s.urlsChan <+: es.map (·.Loc)
      ∧ (s.result ≠ none → s.received = es.map (·.Loc)
          ∧ s.count = (es.map (·.Loc)).foldl reduce 0)
      ∧ ∃ bs s', run fetch reduce s bs = some s' ∧ s'.result ≠ none := by
  have hJ0 : leafInv start es (init start) := Or.inl ⟨rfl, rfl⟩
  have hJ : leafInv start es s := leafInv_run hstart hJ0 h
  have hfin : finiteDepth fetch 1 start = true := by
    simp [finiteDepth, children, hstart, Task.spawns]
  have hI := inv_run (finiteDepth_children fetch 1) (inv_init _ start hfin) h
  refine ⟨?_, ?_, completes fetch reduce (stepsLeft fetch 1 s) s hI (Nat.le_refl _)⟩
  · rcases hJ with ⟨_, hw⟩ | ⟨rest, _, hw⟩ | ⟨_, hw⟩
    · rw [hw]; exact List.nil_prefix
    · exact ⟨rest.map (·.Loc), hw⟩
    · rw [hw]
  · intro hr
    cases hres : s.result with
    | none => exact absurd hres hr
    | some n =>
      obtain ⟨_, ht, _, hch, _, _⟩ := result_facts hI hres
      have hrec : s.received = es.map (·.Loc) := by
        rcases hJ with ⟨ht', _⟩ | ⟨rest, ht', _⟩ | ⟨_, hw⟩
        · rw [ht] at ht'; cases ht'
        · rw [ht] at ht'; cases ht'
        · simpa [hch] using hw
      refine ⟨hrec, ?_⟩
      rw [← hrec]
      exact count_run rfl h

theorem step_fetching (fetch : String → FetchResult) (reduce : Int → String → Int)
    (s : State) (i : Nat) (url : String) (hp : s.panicked = false)
    (ht : s.tasks[i]? = some (.fetching url)) :
    step fetch reduce s (.task i)
      = some { s with tasks := replaceAt s.tasks i [getUrlsFromSitemap (fetch url)] } := by
  simp [step, hp, ht]

/-- C4 (classification): for every response body the index decoding is tried first and the
leaf decoding only when it fails; exactly one of the outcomes index (`spawning`), leaf
(`sending`) and unrecognized (`returning`) holds; a body with root `sitemapindex` makes
the task spawn the decoded `sitemap` entries and a body with root `urlset` makes it send
the decoded `url` entries; a malformed body or one with another root tag does neither.
A task at the head of the index loop, run alone, starts one child per entry in order; a
task at the head of the leaf loop, run alone with room in the channel, writes one URL
per entry in order.  Whatever the size of the document and the state of the program, a
task about to fetch continues with the outcome of the decoding of what it fetches, and a
task at the head of the leaf loop writes the `Loc` of its next entry when the channel has
room and is blocked when it is full.  When the start reference is a leaf document of any
size, under every schedule the items received and buffered so far are a prefix of its
entries in order, the items received when the result is delivered are exactly its
entries in order, and every schedule can be continued until the result is delivered. -/
theorem getUrlsFromSitemap_classification (status : Nat) (body : Body) :
    (∀ idx, unmarshalSitemapIndex body = some idx →
        getUrlsFromSitemap (.response status body) = .spawning idx.Sitemaps)
      ∧ (unmarshalSitemapIndex body = none → ∀ us, unmarshalURLSet body = some us →
        getUrlsFromSitemap (.response status body) = .sending us.URLs)
      ∧ (unmarshalSitemapIndex body = none → unmarshalURLSet body = none →
        getUrlsFromSitemap (.response status body) = .returning)
      ∧ (((∃ es, getUrlsFromSitemap (.response status body) = .spawning es)
            ∧ (∀ es, getUrlsFromSitemap (.response status body) ≠ .sending es)
            ∧ getUrlsFromSitemap (.response status body) ≠ .returning)
          ∨ ((∃ es, getUrlsFromSitemap (.response status body) = .sending es)
            ∧ (∀ es, getUrlsFromSitemap (.response status body) ≠ .spawning es)
            ∧ getUrlsFromSitemap (.response status body) ≠ .returning)
          ∨ (getUrlsFromSitemap (.response status body) = .returning
            ∧ (∀ es, getUrlsFromSitemap (.response status body) ≠ .spawning es)
            ∧ ∀ es, getUrlsFromSitemap (.response status body) ≠ .sending es))
      ∧ (∀ kids, body = .document "sitemapindex" kids →
          getUrlsFromSitemap (.response status body)
            = .spawning (unmarshalEntries "sitemap" kids))
      ∧ (∀ kids, body = .document "urlset" kids →
          getUrlsFromSitemap (.response status body) = .sending (unmarshalEntries "url" kids))
      ∧ (body = .malformed → getUrlsFromSitemap (.response status body) = .returning)
      ∧ (∀ root kids, body = .document root kids → root ≠ "sitemapindex" → root ≠ "urlset" →
          getUrlsFromSitemap (.response status body) = .returning)
      ∧ (∀ (fetch : String → FetchResult) (reduce : Int → String → Int)
          (es : List LocEntry) (s : State) (i : Nat), s.panicked = false →
          s.tasks[i]? = some (.spawning es) →
          run fetch reduce s (List.replicate (2 * es.length) (.task i))
            = some { s with wg := s.wg + (es.length : Nat),
                            tasks := replaceAt s.tasks i [.spawning []]
                              ++ es.map fun e => .fetching e.Loc })
      ∧ (∀ (fetch : String → FetchResult) (reduce : Int → String → Int)
          (es : List LocEntry) (s : State) (i : Nat), s.panicked = false →
          s.closed = false → s.urlsChan.length + es.length ≤ chanCap →
          s.tasks[i]? = some (.sending es) →
          run fetch reduce s (List.replicate es.length (.task i))
            = some { s with urlsChan := s.urlsChan ++ es.map (·.Loc),
                            tasks := replaceAt s.tasks i [.sending []] })
      ∧ (∀ (fetch : String → FetchResult) (reduce : Int → String → Int) (s : State)
          (i : Nat) (url : String), s.panicked = false →
          s.tasks[i]? = some (.fetching url) →
          step fetch reduce s (.task i)
            = some { s with tasks := replaceAt s.tasks i [getUrlsFromSitemap (fetch url)] })
      ∧ (∀ (fetch : String → FetchResult) (reduce : Int → String → Int) (s : State)
          (i : Nat) (e : LocEntry) (rest : List LocEntry), s.panicked = false →
          s.closed = false → s.tasks[i]? = some (.sending (e :: rest)) →
          (s.urlsChan.length < chanCap →
              step fetch reduce s (.task i)
                = some { s with urlsChan := s.urlsChan ++ [e.Loc],
                                tasks := replaceAt s.tasks i [.sending rest] })
            ∧ (¬ s.urlsChan.length < chanCap → step fetch reduce s (.task i) = none))
      ∧ (∀ (fetch : String → FetchResult) (reduce : Int → String → Int) (start : String)
          (es : List LocEntry), getUrlsFromSitemap (fetch start) = .sending es →
          ∀ (as : List Action) (s : State), run fetch reduce (init start) as = some s →
          s.received ++ s.urlsChan <+: es.map (·.Loc)
            ∧ (s.result ≠ none → s.received = es.map (·.Loc)
                ∧ s.count = (es.map (·.Loc)).foldl reduce 0)
            ∧ ∃ bs s', run fetch reduce s bs = some s' ∧ s'.result ≠ none)
      ∧ getUrlsFromSitemap (.response 200 (.document "sitemapindex"
          [.chardata "\n",
           .element "sitemap" [.element "loc" [.chardata "https://a.com/1.xml"]],
           .element "url" [.element "loc" [.chardata "https://a.com/page"]],
           .element "sitemap" [.element "lastmod" [.chardata "2024-01-01"]],
           .element "sitemap" [.element "loc" [.chardata "x"],
             .element "loc" [.chardata "https://a.com/", .element "b" [], .chardata "3.xml"]]]))
        = .spawning [⟨"https://a.com/1.xml"⟩, ⟨""⟩, ⟨"https://a.com/3.xml"⟩] := by
  refine ⟨?_, ?_, ?_, ?_, ?_, ?_, ?_, ?_, fun fetch reduce => run_spawning fetch reduce,
    fun fetch reduce => run_sending fetch reduce, step_fetching, step_sending,
    leaf_run_writes, by decide⟩
  · intro idx h; simp [getUrlsFromSitemap, h]
  · intro h us h'; simp [getUrlsFromSitemap, h, h']
  · intro h h'; simp [getUrlsFromSitemap, h, h']
  · rcases getUrlsFromSitemap_cases (.response status body) with ⟨es, h⟩ | ⟨es, h⟩ | h
    · exact Or.inl ⟨⟨es, h⟩, by simp [h], by simp [h]⟩
    · exact Or.inr (Or.inl ⟨⟨es, h⟩, by simp [h], by simp [h]⟩)
    · exact Or.inr (Or.inr ⟨h, by simp [h], by simp [h]⟩)
  · rintro kids rfl; simp [getUrlsFromSitemap, unmarshalSitemapIndex]
  · rintro kids rfl
    have : ¬ ("urlset" = "sitemapindex") := by decide
    simp [getUrlsFromSitemap, unmarshalSitemapIndex, unmarshalURLSet, this]
  · rintro rfl; simp [getUrlsFromSitemap, unmarshalSitemapIndex, unmarshalURLSet]
  · rintro root kids rfl h1 h2
    simp [getUrlsFromSitemap, unmarshalSitemapIndex, unmarshalURLSet, h1, h2]

/-- C5 (completion invariant): in every state reachable from the start state (counter 1,
one task for the start reference) the pending-work counter equals the number of pending
tasks, counting each running task and each child announced with `wg.Add(1)` and not yet
started by its `go` statement; when no task stands between these two statements it is
the number of running tasks; it is positive while a task is active; the stream is closed
only when no task is left and the counter is zero; it has been closed at most once; no
panic has occurred; and once it is closed no step writes an item to it or closes it
again. -/
theorem completion_invariant (fetch : String → FetchResult) (reduce : Int → String → Int)
    (start : String) (as : List Action) (s : State)
    (h : run fetch reduce (init start) as = some s) :
    s.wg = ((s.tasks.map Task.pending).sum : Nat)
      ∧ ((∀ t ∈ s.tasks, ∀ loc rest, t ≠ .launching loc rest) →
          s.wg = (s.tasks.length : Nat))
      ∧ (s.tasks ≠ [] → 0 < s.wg)
      ∧ (s.closed = true → s.tasks = [] ∧ s.wg = 0)
      ∧ s.closes ≤ 1
      ∧ s.panicked = false
      ∧ (s.closed = true → ∀ a s', step fetch reduce s a = some s' →
          s'.closed = true ∧ s'.closes = s.closes
            ∧ s'.urlsChan.length ≤ s.urlsChan.length) := by
  have hI : Invariant (fun _ => True) s :=
    inv_run (fun _ _ _ _ => trivial) (inv_init _ start trivial) h
  have hwg := hI.wgEq
  have hp := hI.noPanic
  refine ⟨hwg, ?_, ?_, ?_, ?_, hp, ?_⟩
  · intro hl
    rw [hwg, pending_eq_length s.tasks hl]
  · intro hne
    cases hts : s.tasks with
    | nil => exact absurd hts hne
    | cons t ts =>
      rw [hts] at hwg
      have := pending_pos t
      simp only [List.map_cons, List.sum_cons] at hwg
      omega
  · intro hc
    have ht := hI.closedTasks hc
    rw [ht] at hwg
    exact ⟨ht, by simpa using hwg⟩
  · have := hI.closesEq
    split at this <;> omega
  · intro hc a s' hs
    have ht := hI.closedTasks hc
    have hsup := hI.supClosed.1 hc
    cases a with
    | task i => simp [step, hp, ht] at hs
    | supervisor => simp [step, hp, hsup] at hs
    | aggregator =>
      simp only [step, hp, Bool.false_eq_true, if_false] at hs
      cases hr : s.result with
      | some n => simp [hr] at hs
      | none =>
        simp only [hr] at hs
        cases hch : s.urlsChan with
        | cons url rest =>
          simp only [hch, Option.some.injEq] at hs
          subst hs
          exact ⟨hc, rfl, by simp⟩
        | nil =>
          simp only [hch, hc, if_true, Option.some.injEq] at hs
          subst hs
          exact ⟨rfl, rfl, by simp⟩

/-- Witness of C5: the example network after the first task has decoded `index`. -/
theorem completion_invariant_witness :
    run exampleFetch countBody (init "index") [.task 0] = some exampleState
      ∧ (exampleState.wg = ((exampleState.tasks.map Task.pending).sum : Nat)
        ∧ ((∀ t ∈ exampleState.tasks, ∀ loc rest, t ≠ .launching loc rest) →
            exampleState.wg = (exampleState.tasks.length : Nat))
        ∧ (exampleState.tasks ≠ [] → 0 < exampleState.wg)
        ∧ (exampleState.closed = true → exampleState.tasks = [] ∧ exampleState.wg = 0)
        ∧ exampleState.closes ≤ 1
        ∧ exampleState.panicked = false
        ∧ (exampleState.closed = true → ∀ a s',
            step exampleFetch countBody exampleState a = some s' →
            s'.closed = true ∧ s'.closes = exampleState.closes
              ∧ s'.urlsChan.length ≤ exampleState.urlsChan.length)) :=
  ⟨by decide,
   completion_invariant exampleFetch countBody "index" [.task 0] exampleState (by decide)⟩

/-- C6 as stated fails: the location `missing` of the example network answers with status
404 and a body that is a leaf document; the task sends its URL and the count is 1. -/
theorem non_success_status_counterexample :
    exampleFetch "missing" = .response 404 (urlsetDoc ["https://a.com/not-found"])
      ∧ getUrlsFromSitemap (exampleFetch "missing") = .sending [⟨"https://a.com/not-found"⟩]
      ∧ (run exampleFetch countBody (init "missing") [.task 0, .task 0]).map (·.urlsChan)
          = some ["https://a.com/not-found"]
      ∧ (run exampleFetch countBody (init "missing")
          [.task 0, .task 0, .task 0, .supervisor, .supervisor, .aggregator,
            .aggregator]).bind (·.result) = some 1 :=
  ⟨rfl, by decide, by decide, by decide⟩

/-- C6 (amended): for every location whose GET returns an error, or whose body cannot be
read, `getUrlsFromSitemap` takes the fetch-failed outcome: the task returns after its
fetch having written no URL to the stream and spawned no child; the status code of a
response is not inspected, so two responses with the same body are treated alike. -/
theorem fetch_error_is_silent (fetch : String → FetchResult)
    (reduce : Int → String → Int) (s : State) (i : Nat) (url : String)
    (hp : s.panicked = false) (hwg : 0 < s.wg) (ht : s.tasks[i]? = some (.fetching url))
    (hf : fetch url = .getError ∨ ∃ st, fetch url = .readError st) :
    run fetch reduce s [.task i, .task i]
        = some { s with wg := s.wg - 1, tasks := replaceAt s.tasks i [] }
      ∧ ∀ st st' body,
          getUrlsFromSitemap (.response st body) = getUrlsFromSitemap (.response st' body) := by
  refine ⟨run_failed fetch reduce s i url hp hwg ht ?_, fun st st' body => rfl⟩
  rcases hf with h | ⟨st, h⟩ <;> rw [h] <;> rfl

/-- Witness of C6 (amended): the location `down` of the example network. -/
theorem fetch_error_is_silent_witness :
    ((init "down").panicked = false ∧ 0 < (init "down").wg
        ∧ (init "down").tasks[0]? = some (.fetching "down")
        ∧ exampleFetch "down" = .getError)
      ∧ (run exampleFetch countBody (init "down") [.task 0, .task 0]
          = some { init "down" with wg := (init "down").wg - 1,
                                    tasks := replaceAt (init "down").tasks 0 [] }
        ∧ ∀ st st' body,
            getUrlsFromSitemap (.response st body)
              = getUrlsFromSitemap (.response st' body)) :=
  ⟨⟨rfl, by decide, by decide, rfl⟩,
   fetch_error_is_silent exampleFetch countBody (init "down") 0 "down" rfl (by decide)
    (by decide) (Or.inl rfl)⟩

/-- C9 (termination): over a finite acyclic reference tree every schedule from the start
state is no longer than the variant of the start state, so there is no infinite run;
while the aggregator has not delivered its result some goroutine can take a step, so there
is no deadlock; every schedule can be continued to a state in which the result is
delivered; and when it is delivered every task has finished, the pending-work counter is
zero and the stream is closed.  The loop body `reduce` of the aggregator is arbitrary:
the statement covers both reductions. -/
theorem crawl_terminates (fetch : String → FetchResult) (reduce : Int → String → Int)
    (start : String) (d : Nat) (hfin : finiteDepth fetch d start = true)
    (as : List Action) (s : State) (hrun : run fetch reduce (init start) as = some s) :
    as.length ≤ stepsLeft fetch d (init start)
      ∧ (s.result = none → ∃ a s', step fetch reduce s a = some s')
      ∧ (∃ bs s', run fetch reduce s bs = some s' ∧ s'.result ≠ none)
      ∧ (s.result ≠ none → s.tasks = [] ∧ s.wg = 0 ∧ s.closed = true) := by
  have hI0 : Inv fetch d (init start) := inv_init _ start hfin
  have hI := inv_run (finiteDepth_children fetch d) hI0 hrun
  have hm := (run_measures hI0 hrun).1
  refine ⟨by omega, fun hr => progress fetch reduce hI hr, ?_, ?_⟩
  · exact completes fetch reduce (stepsLeft fetch d s) s hI (Nat.le_refl _)
  · intro hr
    cases hres : s.result with
    | none => exact absurd hres hr
    | some n =>
      obtain ⟨hc, ht, hwg, _⟩ := result_facts hI hres
      exact ⟨ht, hwg, hc⟩

/-- Witness of C9: the example index, with the aggregator of `patternMatch`. -/
theorem crawl_terminates_witness :
    (finiteDepth exampleFetch 2 "index" = true
      ∧ run exampleFetch (matchBody toLowerExcerpt "b/") (init "index") [.task 0]
          = some exampleState)
      ∧ ([Action.task 0].length ≤ stepsLeft exampleFetch 2 (init "index")
        ∧ (exampleState.result = none →
            ∃ a s', step exampleFetch (matchBody toLowerExcerpt "b/") exampleState a = some s')
        ∧ (∃ bs s', run exampleFetch (matchBody toLowerExcerpt "b/") exampleState bs = some s'
            ∧ s'.result ≠ none)
        ∧ (exampleState.result ≠ none →
            exampleState.tasks = [] ∧ exampleState.wg = 0 ∧ exampleState.closed = true)) :=
  ⟨⟨by decide, by decide⟩,
   crawl_terminates exampleFetch (matchBody toLowerExcerpt "b/") "index" 2 (by decide)
    [.task 0] exampleState (by decide)⟩

end Sitemaps
